import Mathlib

/-!
# Nested transactions over an in-memory key-value store

A shallow embedding of `in_memory.go`.

* A Go `map[string]string` is a finite association list with pairwise distinct
  keys (`AList`); `m[k] = v` is `AList.insert`, `delete(m, k)` is `AList.erase`,
  `v, ok := m[k]` is `AList.lookup`, and a `range` loop is a left fold over the
  entries of the list.  A `map[string]struct{}` is the same with `Unit` values.
* The doubly linked chain of `transaction` nodes is the list of its nodes, read
  from `db.onGoingTransaction` along the `nested` pointers: the head of the list
  is the outermost transaction, its last element is the node whose `nested` is
  `nil`.  The `parent` of a node is the element just before it; the empty list
  is `db.onGoingTransaction == nil`.
* The same methods are embedded a second time over a heap (`heapGet`, `heapSet`,
  ...), with `parent` and `nested` as addresses or nil and maps that may be nil,
  so that a call can fail; `Represents` ties the memory to the list model.
-/

namespace in_memory

/-- The Go type `storage`, a `map[string]string`. -/
abbrev storage := AList (fun _ : String => String)

/-- A Go `map[string]struct{}`. -/
abbrev keySet := AList (fun _ : String => Unit)

/-- The Go struct `transaction`; `parent` and `nested` are the neighbours of the
node in the chain. -/
structure transaction where
  toSet : storage
  toDelete : keySet
deriving DecidableEq

/-- The Go struct `InMemory`; `onGoingTransaction` holds the whole chain, the
outermost transaction first. -/
structure InMemory where
  storage : storage
  onGoingTransaction : List transaction
deriving DecidableEq

/-- The Go read `m[key]` of a `map[string]string`: the zero value `""` when the
key is absent. -/
def index (m : storage) (key : String) : String :=
  (m.lookup key).getD ""

/-- Constructor `InMemoryDatabase`: an empty storage and no transaction. -/
def InMemoryDatabase : InMemory :=
  { storage := ∅, onGoingTransaction := [] }

/-- The loop of `getLast`: from the node `last`, whose `nested` chain is `rest`,
follow `nested` until it is `nil`. -/
def walk : transaction → List transaction → transaction
  | last, [] => last
  | _, next :: rest => walk next rest

/-- Method `getLast`: the last transaction node of the chain, `none` for `nil`. -/
def getLast (db : InMemory) : Option transaction :=
  match db.onGoingTransaction with
  | [] => none
  | head :: rest => some (walk head rest)

/-- The `parent` pointer of the last node of a chain: `none` when the chain has a
single node. -/
def parentOfLast (chain : List transaction) : Option transaction :=
  chain.dropLast.getLast?

/-- Writing through the pointer returned by `getLast`: the chain with its last
node replaced by `tr`. -/
def storeLast (chain : List transaction) (tr : transaction) : List transaction :=
  chain.dropLast ++ [tr]

/-- Method `Get`. -/
def Get (db : InMemory) (key : String) : String :=
  match db.onGoingTransaction with
  | [] => index db.storage key
  | head :: rest =>
    let tr := walk head rest
    match tr.toSet.lookup key with
    | some v => v
    | none =>
      match tr.toDelete.lookup key with
      | some _ => ""
      | none => index db.storage key

/-- Method `Set`. -/
def Set (db : InMemory) (key value : String) : InMemory :=
  match db.onGoingTransaction with
  | [] => { storage := db.storage.insert key value, onGoingTransaction := [] }
  | head :: rest =>
    let tr := walk head rest
    { storage := db.storage,
      onGoingTransaction :=
        storeLast (head :: rest) ⟨tr.toSet.insert key value, tr.toDelete.erase key⟩ }

/-- Method `Delete`. -/
def Delete (db : InMemory) (key : String) : InMemory :=
  match db.onGoingTransaction with
  | [] => { storage := db.storage.erase key, onGoingTransaction := [] }
  | head :: rest =>
    let tr := walk head rest
    { storage := db.storage,
      onGoingTransaction :=
        storeLast (head :: rest) ⟨tr.toSet.erase key, tr.toDelete.insert key ()⟩ }

/-- Function `copyToSetMap`: a fresh map filled by ranging over `toSet`. -/
def copyToSetMap (toSet : storage) : storage :=
  toSet.entries.foldl (fun copied e => copied.insert e.1 e.2) ∅

/-- Function `copyToDeleteMap`: a fresh map filled by ranging over `toDelete`. -/
def copyToDeleteMap (toDelete : keySet) : keySet :=
  toDelete.entries.foldl (fun copied e => copied.insert e.1 ()) ∅

/-- Method `StartTransaction`. -/
def StartTransaction (db : InMemory) : InMemory :=
  match getLast db with
  | none => { storage := db.storage, onGoingTransaction := [⟨∅, ∅⟩] }
  | some tr =>
    { storage := db.storage,
      onGoingTransaction :=
        db.onGoingTransaction ++ [⟨copyToSetMap tr.toSet, copyToDeleteMap tr.toDelete⟩] }

/-- First loop of the outermost `Commit`: delete every key of `toDelete` from the
storage. -/
def applyDeletes (st : storage) (toDelete : keySet) : storage :=
  toDelete.entries.foldl (fun s e => s.erase e.1) st

/-- Second loop of the outermost `Commit`: write every entry of `toSet` to the
storage. -/
def applySets (st : storage) (toSet : storage) : storage :=
  toSet.entries.foldl (fun s e => s.insert e.1 e.2) st

/-- First loop of the nested `Commit`: move every key of `toDelete` into the
parent's `toDelete` and drop it from the parent's `toSet`. -/
def transferDeletes (parent : transaction) (toDelete : keySet) : transaction :=
  toDelete.entries.foldl
    (fun p e => { toSet := p.toSet.erase e.1, toDelete := p.toDelete.insert e.1 () }) parent

/-- Second loop of the nested `Commit`: move every entry of `toSet` into the
parent's `toSet` and drop its key from the parent's `toDelete`. -/
def transferSets (parent : transaction) (toSet : storage) : transaction :=
  toSet.entries.foldl
    (fun p e => { toSet := p.toSet.insert e.1 e.2, toDelete := p.toDelete.erase e.1 }) parent

/-- Method `Commit`. -/
def Commit (db : InMemory) : InMemory :=
  match getLast db with
  | none => db
  | some tr =>
    match parentOfLast db.onGoingTransaction with
    | none =>
      { storage := applySets (applyDeletes db.storage tr.toDelete) tr.toSet,
        onGoingTransaction := [] }
    | some parent =>
      { storage := db.storage,
        onGoingTransaction :=
          storeLast db.onGoingTransaction.dropLast
            (transferSets (transferDeletes parent tr.toDelete) tr.toSet) }

/-- Method `Rollback`. -/
def Rollback (db : InMemory) : InMemory :=
  match getLast db with
  | none => db
  | some _ =>
    match parentOfLast db.onGoingTransaction with
    | none => { storage := db.storage, onGoingTransaction := [] }
    | some _ => { storage := db.storage, onGoingTransaction := db.onGoingTransaction.dropLast }

/-- One call of the public interface. -/
inductive Op where
  | get (key : String)
  | set (key value : String)
  | delete (key : String)
  | startTransaction
  | commit
  | rollback
deriving DecidableEq

/-- The state after one call; `Get` leaves the database as it is. -/
def step (db : InMemory) : Op → InMemory
  | .get _ => db
  | .set key value => Set db key value
  | .delete key => Delete db key
  | .startTransaction => StartTransaction db
  | .commit => Commit db
  | .rollback => Rollback db

/-- The state after a sequence of calls, the first call first. -/
def run (db : InMemory) : List Op → InMemory
  | [] => db
  | op :: ops => run (step db op) ops

/-- The database right after `ops` have been called on a fresh database: the
reachable states are exactly these. -/
def reach (ops : List Op) : InMemory :=
  run InMemoryDatabase ops

/-- The entry that `Get` resolves for a key, before the zero value stands in for
an absent one: the last node's `toSet`, then its `toDelete`, then the storage. -/
def visible (db : InMemory) (key : String) : Option String :=
  match db.onGoingTransaction.getLast? with
  | none => db.storage.lookup key
  | some tr =>
    (tr.toSet.lookup key).or (if key ∈ tr.toDelete then none else db.storage.lookup key)

/-- A key is in the overlay of a node: in its `toSet` or in its `toDelete`. -/
def touches (tr : transaction) (key : String) : Prop :=
  key ∈ tr.toSet ∨ key ∈ tr.toDelete

/-- Every node's overlay contains the overlay of its parent. -/
def Nested (chain : List transaction) : Prop :=
  chain.Chain' (fun p c => ∀ key, touches p key → touches c key)

/-- No key is in both maps of the node. -/
def Exclusive (tr : transaction) : Prop :=
  ∀ key, ¬ (key ∈ tr.toSet ∧ key ∈ tr.toDelete)

/-- While `ops` run from `db`, the chain has at least `n` nodes after every call. -/
def keepsOpen (n : Nat) (db : InMemory) : List Op → Bool
  | [] => true
  | op :: ops =>
    decide (n ≤ (step db op).onGoingTransaction.length) && keepsOpen n (step db op) ops

/-- A sequence of `Get`, `Set`, `Delete`, `StartTransaction` and `Commit` calls,
read at nesting depth `d`, in which every `Commit` closes an earlier
`StartTransaction` and every `StartTransaction` is closed. -/
def wellBracketed : Nat → List Op → Bool
  | d, [] => d == 0
  | d, .startTransaction :: ops => wellBracketed (d + 1) ops
  | 0, .commit :: _ => false
  | d + 1, .commit :: ops => wellBracketed d ops
  | _, .rollback :: _ => false
  | d, _ :: ops => wellBracketed d ops

/-- The sequence without its `StartTransaction` and `Commit` calls. -/
def withoutBoundaries : List Op → List Op
  | [] => []
  | .startTransaction :: ops => withoutBoundaries ops
  | .commit :: ops => withoutBoundaries ops
  | op :: ops => op :: withoutBoundaries ops

/-- The strings a call returns: the result of `Get`, nothing for the other calls. -/
def returned (db : InMemory) : Op → List String
  | .get key => [Get db key]
  | _ => []

/-- The strings returned by the `Get` calls of a sequence run from `db`, in order. -/
def gets (db : InMemory) : List Op → List String
  | [] => []
  | op :: ops => returned db op ++ gets (step db op) ops

/-- The entry a node resolves for a key over the storage `st`: its `toSet`, then
its `toDelete`, then the storage. -/
def overlayView (st : storage) (tr : transaction) (key : String) : Option String :=
  (tr.toSet.lookup key).or (if key ∈ tr.toDelete then none else st.lookup key)

/-- What `Get` would return at each level of the database, the innermost level
first and the storage last. -/
def views (db : InMemory) : List (String → String) :=
  db.onGoingTransaction.reverse.map (fun tr key => (overlayView db.storage tr key).getD "") ++
    [fun key => index db.storage key]

/-- One call on a stack of total views, the top first. -/
def stackStep (l : List (String → String)) : Op → List (String → String)
  | .get _ => l
  | .set key value =>
    match l with
    | f :: fs => Function.update f key value :: fs
    | [] => []
  | .delete key =>
    match l with
    | f :: fs => Function.update f key "" :: fs
    | [] => []
  | .startTransaction =>
    match l with
    | f :: fs => f :: f :: fs
    | [] => []
  | .commit =>
    match l with
    | f :: _ :: fs => f :: fs
    | _ => l
  | .rollback =>
    match l with
    | _ :: g :: fs => g :: fs
    | _ => l

/-- The strings a call returns on a stack of total views. -/
def stackReturned (l : List (String → String)) : Op → List String
  | .get key =>
    match l with
    | f :: _ => [f key]
    | [] => []
  | _ => []

/-- The strings returned by the `Get` calls of a sequence run on a stack of total
views. -/
def stackGets (l : List (String → String)) : List Op → List String
  | [] => []
  | op :: ops => stackReturned l op ++ stackGets (stackStep l op) ops

/-- The reference model of the snapshot stack: a non-empty stack of plain maps,
`top` the map of the innermost level and `below` the maps under it, the nearest
first and the base store last. -/
structure SnapshotStack where
  top : storage
  below : List storage

/-- The reference model on a fresh database: the empty base store alone. -/
def SnapshotStack.fresh : SnapshotStack :=
  { top := ∅, below := [] }

/-- One call in the reference model: `Set` and `Delete` update the top map,
`StartTransaction` pushes a copy of the top map, `Rollback` pops the top when
there is a map below it, `Commit` puts the top in the place of the map below it
and pops when there is a map below it, `Get` changes nothing. -/
def SnapshotStack.apply (r : SnapshotStack) : Op → SnapshotStack
  | .get _ => r
  | .set key value => { top := r.top.insert key value, below := r.below }
  | .delete key => { top := r.top.erase key, below := r.below }
  | .startTransaction => { top := r.top, below := r.top :: r.below }
  | .commit =>
    match r.below with
    | [] => r
    | _ :: rest => { top := r.top, below := rest }
  | .rollback =>
    match r.below with
    | [] => r
    | m :: rest => { top := m, below := rest }

/-- The strings a call returns in the reference model: `Get` looks the key up in
the top map, the empty string when absent. -/
def SnapshotStack.answers (r : SnapshotStack) : Op → List String
  | .get key => [(r.top.lookup key).getD ""]
  | _ => []

/-- The strings returned by the `Get` calls of a sequence in the reference model. -/
def SnapshotStack.trace (r : SnapshotStack) : List Op → List String
  | [] => []
  | op :: ops => r.answers op ++ SnapshotStack.trace (r.apply op) ops

/-- The total views of the maps of the reference model, the top first. -/
def SnapshotStack.levels (r : SnapshotStack) : List (String → String) :=
  (r.top :: r.below).map (fun m key => (m.lookup key).getD "")

/-- Method `Commit` with the order of its `range` loops given: the loops over
`tr.toDelete` visit `dels` and the loops over `tr.toSet` visit `sets`, which
list the entries of the two maps in some order. -/
def CommitInOrder (dels : List (Σ _ : String, Unit)) (sets : List (Σ _ : String, String))
    (db : InMemory) : InMemory :=
  match getLast db with
  | none => db
  | some _ =>
    match parentOfLast db.onGoingTransaction with
    | none =>
      { storage :=
          sets.foldl (fun s e => s.insert e.1 e.2) (dels.foldl (fun s e => s.erase e.1) db.storage),
        onGoingTransaction := [] }
    | some parent =>
      { storage := db.storage,
        onGoingTransaction :=
          storeLast db.onGoingTransaction.dropLast
            (sets.foldl
              (fun p e => { toSet := p.toSet.insert e.1 e.2, toDelete := p.toDelete.erase e.1 })
              (dels.foldl
                (fun p e => { toSet := p.toSet.erase e.1, toDelete := p.toDelete.insert e.1 () })
                parent)) }

/-- Two nodes hold the same entries in their maps, whatever the order. -/
def sameEntries (a b : transaction) : Prop :=
  a.toSet.entries.Perm b.toSet.entries ∧ a.toDelete.entries.Perm b.toDelete.entries

/-- Two databases hold the same entries in the storage and in the maps of every
node of the chain, whatever the order. -/
def sameContents (a b : InMemory) : Prop :=
  a.storage.entries.Perm b.storage.entries ∧
    List.Forall₂ sameEntries a.onGoingTransaction b.onGoingTransaction

/-! ### The program on a heap

The same methods, with the `transaction` structs in a heap, `parent` and `nested`
as addresses or nil, and every map as a map or nil, so that the run-time faults
of the Go program appear: a write to a nil map, a field access through a nil
pointer, and a loop that never returns. -/

/-- A Go map value: `none` is the nil map. -/
abbrev goMap (γ : Type) := Option (AList (fun _ : String => γ))

/-- The ways in which a call can fail to return. -/
inductive Fault where
  | nilMapWrite
  | nilDereference
  | danglingPointer
  | endlessLoop
deriving DecidableEq

/-- The Go assignment `m[key] = v`: a run-time fault on the nil map. -/
def goAssign {γ : Type} (m : goMap γ) (key : String) (v : γ) :
    Except Fault (AList (fun _ : String => γ)) :=
  match m with
  | none => .error .nilMapWrite
  | some entries => .ok (entries.insert key v)

/-- The Go call `delete(m, key)`: no effect on the nil map. -/
def goDelete {γ : Type} (m : goMap γ) (key : String) : goMap γ :=
  match m with
  | none => none
  | some entries => some (entries.erase key)

/-- The Go read `v, ok := m[key]`: not found in the nil map. -/
def goLookup {γ : Type} (m : goMap γ) (key : String) : Option γ :=
  match m with
  | none => none
  | some entries => entries.lookup key

/-- The entries a Go `range` loop visits: none for the nil map. -/
def goRange {γ : Type} (m : goMap γ) : List (Σ _ : String, γ) :=
  match m with
  | none => []
  | some entries => entries.entries

/-- The Go struct `transaction` in memory. -/
structure Node where
  parent : Option Nat
  nested : Option Nat
  toSet : goMap String
  toDelete : goMap Unit

/-- The Go struct `InMemory` in memory, with the heap of the `transaction`
structs allocated so far; an address is a position in the heap. -/
structure Memory where
  storage : goMap String
  onGoingTransaction : Option Nat
  heap : List Node

/-- Constructor `InMemoryDatabase` on the heap: `make(storage)` and a nil
`onGoingTransaction`. -/
def heapInMemoryDatabase : Memory :=
  { storage := some ∅, onGoingTransaction := none, heap := [] }

/-- Access to the struct behind a pointer: a fault for nil. -/
def deref (heap : List Node) : Option Nat → Except Fault Node
  | none => .error .nilDereference
  | some a =>
    match heap[a]? with
    | none => .error .danglingPointer
    | some node => .ok node

/-- Write of a struct through a pointer. -/
def store (heap : List Node) (p : Option Nat) (node : Node) : List Node :=
  match p with
  | none => heap
  | some a => heap.set a node

/-- The loop of `getLast` on the heap, from the address `last`, for at most `fuel`
rounds. -/
def heapWalk (heap : List Node) : Nat → Nat → Except Fault (Option Nat)
  | 0, _ => .error .endlessLoop
  | fuel + 1, last =>
    match heap[last]? with
    | none => .error .danglingPointer
    | some node =>
      match node.nested with
      | none => .ok (some last)
      | some next => heapWalk heap fuel next

/-- Method `getLast` on the heap; the loop gets as many rounds as there are
structs in the heap. -/
def heapGetLast (m : Memory) : Except Fault (Option Nat) :=
  match m.onGoingTransaction with
  | none => .ok none
  | some head => heapWalk m.heap m.heap.length head

/-- The Go read `m[key]` of a possibly nil `map[string]string`. -/
def goIndex (m : goMap String) (key : String) : String :=
  (goLookup m key).getD ""

/-- Method `Get` on the heap. -/
def heapGet (m : Memory) (key : String) : Except Fault String :=
  match m.onGoingTransaction with
  | none => .ok (goIndex m.storage key)
  | some _ => do
    let tr ← heapGetLast m
    let node ← deref m.heap tr
    match goLookup node.toSet key with
    | some v => pure v
    | none =>
      match goLookup node.toDelete key with
      | some _ => pure ""
      | none => pure (goIndex m.storage key)

/-- Method `Set` on the heap. -/
def heapSet (m : Memory) (key value : String) : Except Fault Memory :=
  match m.onGoingTransaction with
  | none => do
    let st ← goAssign m.storage key value
    pure { storage := some st, onGoingTransaction := none, heap := m.heap }
  | some head => do
    let tr ← heapGetLast m
    let node ← deref m.heap tr
    let toSet ← goAssign node.toSet key value
    let node1 : Node := ⟨node.parent, node.nested, some toSet, goDelete node.toDelete key⟩
    pure { storage := m.storage, onGoingTransaction := some head, heap := store m.heap tr node1 }

/-- Method `Delete` on the heap. -/
def heapDelete (m : Memory) (key : String) : Except Fault Memory :=
  match m.onGoingTransaction with
  | none =>
    pure { storage := goDelete m.storage key, onGoingTransaction := none, heap := m.heap }
  | some head => do
    let tr ← heapGetLast m
    let node ← deref m.heap tr
    let toDelete ← goAssign node.toDelete key ()
    let node1 : Node := ⟨node.parent, node.nested, goDelete node.toSet key, some toDelete⟩
    pure { storage := m.storage, onGoingTransaction := some head, heap := store m.heap tr node1 }

/-- Function `copyToSetMap` on a possibly nil map: the result of `make` filled by
the loop. -/
def goCopyToSetMap (toSet : goMap String) : storage :=
  (goRange toSet).foldl (fun copied e => copied.insert e.1 e.2) ∅

/-- Function `copyToDeleteMap` on a possibly nil map. -/
def goCopyToDeleteMap (toDelete : goMap Unit) : keySet :=
  (goRange toDelete).foldl (fun copied e => copied.insert e.1 ()) ∅

/-- Method `StartTransaction` on the heap; the new struct gets the next free
address. -/
def heapStartTransaction (m : Memory) : Except Fault Memory := do
  let tr ← heapGetLast m
  match tr with
  | none =>
    pure { storage := m.storage, onGoingTransaction := some m.heap.length,
           heap := m.heap ++ [⟨none, none, some ∅, some ∅⟩] }
  | some a => do
    let node ← deref m.heap (some a)
    let fresh : Node :=
      ⟨some a, none, some (goCopyToSetMap node.toSet), some (goCopyToDeleteMap node.toDelete)⟩
    let node1 : Node := ⟨node.parent, some m.heap.length, node.toSet, node.toDelete⟩
    pure { storage := m.storage, onGoingTransaction := m.onGoingTransaction,
           heap := m.heap.set a node1 ++ [fresh] }

/-- Second loop of the outermost `Commit` on a possibly nil storage. -/
def goApplySets (st : goMap String) (toSet : goMap String) : Except Fault (goMap String) :=
  (goRange toSet).foldlM (fun s e => (goAssign s e.1 e.2).map some) st

/-- First loop of the outermost `Commit` on a possibly nil storage. -/
def goApplyDeletes (st : goMap String) (toDelete : goMap Unit) : goMap String :=
  (goRange toDelete).foldl (fun s e => goDelete s e.1) st

/-- First loop of the nested `Commit` on the struct of the parent. -/
def goTransferDeletes (parent : Node) (toDelete : goMap Unit) : Except Fault Node :=
  (goRange toDelete).foldlM
    (fun p e => (goAssign p.toDelete e.1 ()).map
      (fun d => (⟨p.parent, p.nested, goDelete p.toSet e.1, some d⟩ : Node))) parent

/-- Second loop of the nested `Commit` on the struct of the parent. -/
def goTransferSets (parent : Node) (toSet : goMap String) : Except Fault Node :=
  (goRange toSet).foldlM
    (fun p e => (goAssign p.toSet e.1 e.2).map
      (fun s => (⟨p.parent, p.nested, some s, goDelete p.toDelete e.1⟩ : Node))) parent

/-- Method `Commit` on the heap. -/
def heapCommit (m : Memory) : Except Fault Memory := do
  let tr ← heapGetLast m
  match tr with
  | none => pure m
  | some a => do
    let node ← deref m.heap (some a)
    match node.parent with
    | none => do
      let st ← goApplySets (goApplyDeletes m.storage node.toDelete) node.toSet
      pure { storage := st, onGoingTransaction := none, heap := m.heap }
    | some p => do
      let parent ← deref m.heap (some p)
      let parent1 ← goTransferDeletes parent node.toDelete
      let parent2 ← goTransferSets parent1 node.toSet
      let parent3 : Node := ⟨parent2.parent, none, parent2.toSet, parent2.toDelete⟩
      pure { storage := m.storage, onGoingTransaction := m.onGoingTransaction,
             heap := m.heap.set p parent3 }

/-- Method `Rollback` on the heap. -/
def heapRollback (m : Memory) : Except Fault Memory := do
  let tr ← heapGetLast m
  match tr with
  | none => pure m
  | some a => do
    let node ← deref m.heap (some a)
    match node.parent with
    | none => pure { storage := m.storage, onGoingTransaction := none, heap := m.heap }
    | some p => do
      let parent ← deref m.heap (some p)
      let parent1 : Node := ⟨parent.parent, none, parent.toSet, parent.toDelete⟩
      pure { storage := m.storage, onGoingTransaction := m.onGoingTransaction,
             heap := m.heap.set p parent1 }

/-- The memory after one call, or the fault of the call. -/
def heapStep (m : Memory) : Op → Except Fault Memory
  | .get key => (heapGet m key).map (fun _ => m)
  | .set key value => heapSet m key value
  | .delete key => heapDelete m key
  | .startTransaction => heapStartTransaction m
  | .commit => heapCommit m
  | .rollback => heapRollback m

/-- The memory after a sequence of calls, or the first fault. -/
def heapRun (m : Memory) : List Op → Except Fault Memory
  | [] => .ok m
  | op :: ops =>
    match heapStep m op with
    | .error fault => .error fault
    | .ok m1 => heapRun m1 ops

/-- The structs of a stretch of the chain: `cells` lists the address of each
struct with the node of the list model it holds, `par` is the `parent` of the
first struct and `next` the `nested` of the last. -/
def Seg (heap : List Node) : Option Nat → List (Nat × transaction) → Option Nat → Prop
  | _, [], _ => True
  | par, c :: cells, next =>
    heap[c.1]? =
        some ⟨par, ((cells.head?).map Prod.fst).or next, some c.2.toSet, some c.2.toDelete⟩ ∧
      Seg heap (some c.1) cells next

/-- The memory holds the database `db` of the list model: the storage is the same
map and not nil, and the structs reached from `onGoingTransaction` along
`nested` hold the nodes of the chain, at rising addresses, with maps that are
not nil. -/
def Represents (m : Memory) (db : InMemory) : Prop :=
  m.storage = some db.storage ∧
    ∃ cells : List (Nat × transaction),
      cells.map Prod.snd = db.onGoingTransaction ∧
      (cells.map Prod.fst).Pairwise (· < ·) ∧
      m.onGoingTransaction = (cells.head?).map Prod.fst ∧
      Seg m.heap none cells none

/-- The struct that holds the node `t` of the list model between the pointers
`par` and `next`. -/
def nodeOf (par next : Option Nat) (t : transaction) : Node :=
  ⟨par, next, some t.toSet, some t.toDelete⟩

end in_memory

namespace in_memory

/-! ## The operations on a chain written as `init ++ [tr]` -/

theorem walk_concat (head : transaction) (rest : List transaction) (tr : transaction) :
    walk head (rest ++ [tr]) = tr := by
  induction rest generalizing head with
  | nil => rfl
  | cons next rest ih => exact ih next

theorem getLast_nil (st : storage) : getLast ⟨st, []⟩ = none := rfl

theorem getLast_concat (st : storage) (init : List transaction) (tr : transaction) :
    getLast ⟨st, init ++ [tr]⟩ = some tr := by
  cases init with
  | nil => rfl
  | cons head rest => simp [getLast, walk_concat]

theorem parentOfLast_single (tr : transaction) : parentOfLast [tr] = none := rfl

theorem parentOfLast_concat (init : List transaction) (p tr : transaction) :
    parentOfLast (init ++ [p, tr]) = some p := by
  have h : init ++ [p, tr] = (init ++ [p]) ++ [tr] := by simp
  rw [parentOfLast, h, List.dropLast_concat, List.getLast?_concat]

theorem storeLast_concat (init : List transaction) (tr tr1 : transaction) :
    storeLast (init ++ [tr]) tr1 = init ++ [tr1] := by
  rw [storeLast, List.dropLast_concat]

theorem Get_nil (st : storage) (k : String) : Get ⟨st, []⟩ k = index st k := rfl

theorem Get_concat (st : storage) (init : List transaction) (tr : transaction) (k : String) :
    Get ⟨st, init ++ [tr]⟩ k =
      match tr.toSet.lookup k with
      | some v => v
      | none =>
        match tr.toDelete.lookup k with
        | some _ => ""
        | none => index st k := by
  cases init with
  | nil => rfl
  | cons head rest => simp only [Get, List.cons_append, walk_concat]

theorem Set_nil (st : storage) (k v : String) : Set ⟨st, []⟩ k v = ⟨st.insert k v, []⟩ := rfl

theorem Set_concat (st : storage) (init : List transaction) (tr : transaction) (k v : String) :
    Set ⟨st, init ++ [tr]⟩ k v = ⟨st, init ++ [⟨tr.toSet.insert k v, tr.toDelete.erase k⟩]⟩ := by
  cases init with
  | nil => rfl
  | cons head rest =>
    simp only [Set, List.cons_append, walk_concat]
    rw [← List.cons_append, storeLast_concat, List.cons_append]

theorem Delete_nil (st : storage) (k : String) : Delete ⟨st, []⟩ k = ⟨st.erase k, []⟩ := rfl

theorem Delete_concat (st : storage) (init : List transaction) (tr : transaction) (k : String) :
    Delete ⟨st, init ++ [tr]⟩ k =
      ⟨st, init ++ [⟨tr.toSet.erase k, tr.toDelete.insert k ()⟩]⟩ := by
  cases init with
  | nil => rfl
  | cons head rest =>
    simp only [Delete, List.cons_append, walk_concat]
    rw [← List.cons_append, storeLast_concat, List.cons_append]

theorem StartTransaction_nil (st : storage) :
    StartTransaction ⟨st, []⟩ = ⟨st, [⟨∅, ∅⟩]⟩ := rfl

theorem StartTransaction_concat (st : storage) (init : List transaction) (tr : transaction) :
    StartTransaction ⟨st, init ++ [tr]⟩ =
      ⟨st, init ++ [tr, ⟨copyToSetMap tr.toSet, copyToDeleteMap tr.toDelete⟩]⟩ := by
  simp [StartTransaction, getLast_concat]

theorem Commit_nil (st : storage) : Commit ⟨st, []⟩ = ⟨st, []⟩ := rfl

theorem Commit_single (st : storage) (tr : transaction) :
    Commit ⟨st, [tr]⟩ = ⟨applySets (applyDeletes st tr.toDelete) tr.toSet, []⟩ := rfl

theorem Commit_concat (st : storage) (init : List transaction) (p tr : transaction) :
    Commit ⟨st, init ++ [p, tr]⟩ =
      ⟨st, init ++ [transferSets (transferDeletes p tr.toDelete) tr.toSet]⟩ := by
  have h : init ++ [p, tr] = (init ++ [p]) ++ [tr] := by simp
  have hl : getLast ⟨st, init ++ [p, tr]⟩ = some tr := by rw [h, getLast_concat]
  simp only [Commit, hl, parentOfLast_concat]
  rw [h, List.dropLast_concat, storeLast_concat]

theorem Rollback_nil (st : storage) : Rollback ⟨st, []⟩ = ⟨st, []⟩ := rfl

theorem Rollback_single (st : storage) (tr : transaction) :
    Rollback ⟨st, [tr]⟩ = ⟨st, []⟩ := rfl

/-- Every chain is empty or ends in a last node. -/
theorem chain_snoc (chain : List transaction) :
    chain = [] ∨ ∃ init tr, chain = init ++ [tr] := by
  rcases List.eq_nil_or_concat chain with rfl | ⟨init, tr, h⟩
  · exact Or.inl rfl
  · exact Or.inr ⟨init, tr, by rw [h, List.concat_eq_append]⟩

theorem Rollback_concat (st : storage) (init : List transaction) (tr : transaction) :
    Rollback ⟨st, init ++ [tr]⟩ = ⟨st, init⟩ := by
  rcases chain_snoc init with rfl | ⟨init1, p, rfl⟩
  · rfl
  · have h : init1 ++ [p] ++ [tr] = init1 ++ [p, tr] := by simp
    have hl : getLast ⟨st, init1 ++ [p] ++ [tr]⟩ = some tr := getLast_concat _ _ _
    simp only [Rollback, hl]
    rw [h, parentOfLast_concat, ← h, List.dropLast_concat]

/-- Every chain is empty, a single node, or ends in a parent and its nested node. -/
theorem chain_cases (chain : List transaction) :
    chain = [] ∨ (∃ tr, chain = [tr]) ∨ ∃ init p tr, chain = init ++ [p, tr] := by
  rcases chain_snoc chain with rfl | ⟨init, tr, rfl⟩
  · exact Or.inl rfl
  · rcases chain_snoc init with rfl | ⟨init1, p, rfl⟩
    · exact Or.inr (Or.inl ⟨tr, rfl⟩)
    · exact Or.inr (Or.inr ⟨init1, p, tr, by simp⟩)

/-! ## What the `range` loops compute -/

/-- A loop that deletes every enumerated key: afterwards an enumerated key is
absent and every other key is as before. -/
theorem lookup_foldl_erase {γ δ : Type} (l : List (Σ _ : String, γ))
    (init : AList (fun _ : String => δ)) (k : String) :
    (l.foldl (fun s e => s.erase e.1) init).lookup k =
      if k ∈ l.keys then none else init.lookup k := by
  induction l generalizing init with
  | nil => simp
  | cons e l ih =>
    rw [List.foldl_cons, ih]
    by_cases hk : k = e.1
    · subst hk
      simp
    · simp only [List.keys_cons, List.mem_cons, hk, false_or, AList.lookup_erase_ne hk]

/-- A loop that writes every enumerated entry: afterwards an enumerated key holds
its enumerated value and every other key is as before. -/
theorem lookup_foldl_insert {γ : Type} (l : List (Σ _ : String, γ)) (hl : l.NodupKeys)
    (init : AList (fun _ : String => γ)) (k : String) :
    (l.foldl (fun s e => s.insert e.1 e.2) init).lookup k =
      (l.dlookup k).or (init.lookup k) := by
  induction l generalizing init with
  | nil => simp
  | cons e l ih =>
    obtain ⟨hnot, hl1⟩ := List.nodupKeys_cons.mp hl
    rw [List.foldl_cons, ih hl1]
    by_cases hk : k = e.1
    · subst hk
      have hnone : List.dlookup e.1 l = none := List.dlookup_eq_none.mpr hnot
      have hhead : List.dlookup e.1 (e :: l) = some e.2 := by
        cases e
        exact List.dlookup_cons_eq _ _ _
      simp [hnone, hhead]
    · simp only [List.dlookup_cons_ne _ _ hk, AList.lookup_insert_ne hk]

/-- The erasing loop, ranging over a map. -/
theorem lookup_range_erase {γ δ : Type} (m : AList (fun _ : String => γ))
    (init : AList (fun _ : String => δ)) (k : String) :
    (m.entries.foldl (fun s e => s.erase e.1) init).lookup k =
      if k ∈ m then none else init.lookup k := by
  rw [lookup_foldl_erase]
  by_cases h : k ∈ m
  · have h1 : k ∈ m.entries.keys := h
    rw [if_pos h, if_pos h1]
  · have h1 : k ∉ m.entries.keys := h
    rw [if_neg h, if_neg h1]

/-- The writing loop, ranging over a map. -/
theorem lookup_range_insert {γ : Type} (m init : AList (fun _ : String => γ)) (k : String) :
    (m.entries.foldl (fun s e => s.insert e.1 e.2) init).lookup k =
      (m.lookup k).or (init.lookup k) := by
  rw [lookup_foldl_insert _ m.nodupKeys]
  have h : List.dlookup k m.entries = m.lookup k := rfl
  rw [h]

theorem lookup_copyToSetMap (toSet : storage) (k : String) :
    (copyToSetMap toSet).lookup k = toSet.lookup k := by
  rw [copyToSetMap, lookup_range_insert]
  cases toSet.lookup k <;> simp

theorem lookup_copyToDeleteMap (toDelete : keySet) (k : String) :
    (copyToDeleteMap toDelete).lookup k = toDelete.lookup k := by
  have h := lookup_range_insert toDelete (∅ : keySet) k
  rw [copyToDeleteMap]
  refine h.trans ?_
  cases toDelete.lookup k <;> simp

theorem lookup_applyDeletes (st : storage) (toDelete : keySet) (k : String) :
    (applyDeletes st toDelete).lookup k = if k ∈ toDelete then none else st.lookup k := by
  rw [applyDeletes, lookup_range_erase]

theorem lookup_applySets (st toSet : storage) (k : String) :
    (applySets st toSet).lookup k = (toSet.lookup k).or (st.lookup k) := by
  rw [applySets, lookup_range_insert]

theorem transferDeletes_toSet (parent : transaction) (toDelete : keySet) :
    (transferDeletes parent toDelete).toSet =
      toDelete.entries.foldl (fun s e => s.erase e.1) parent.toSet := by
  unfold transferDeletes
  generalize toDelete.entries = l
  induction l generalizing parent with
  | nil => rfl
  | cons e l ih => rw [List.foldl_cons, ih, List.foldl_cons]

theorem transferDeletes_toDelete (parent : transaction) (toDelete : keySet) :
    (transferDeletes parent toDelete).toDelete =
      toDelete.entries.foldl (fun s e => s.insert e.1 e.2) parent.toDelete := by
  unfold transferDeletes
  generalize toDelete.entries = l
  induction l generalizing parent with
  | nil => rfl
  | cons e l ih => rw [List.foldl_cons, ih, List.foldl_cons]

theorem transferSets_toSet (parent : transaction) (toSet : storage) :
    (transferSets parent toSet).toSet =
      toSet.entries.foldl (fun s e => s.insert e.1 e.2) parent.toSet := by
  unfold transferSets
  generalize toSet.entries = l
  induction l generalizing parent with
  | nil => rfl
  | cons e l ih => rw [List.foldl_cons, ih, List.foldl_cons]

theorem transferSets_toDelete (parent : transaction) (toSet : storage) :
    (transferSets parent toSet).toDelete =
      toSet.entries.foldl (fun s e => s.erase e.1) parent.toDelete := by
  unfold transferSets
  generalize toSet.entries = l
  induction l generalizing parent with
  | nil => rfl
  | cons e l ih => rw [List.foldl_cons, ih, List.foldl_cons]

/-- The parent's `toSet` after the two loops of a nested `Commit`. -/
theorem lookup_merged_toSet (parent tr : transaction) (k : String) :
    (transferSets (transferDeletes parent tr.toDelete) tr.toSet).toSet.lookup k =
      (tr.toSet.lookup k).or (if k ∈ tr.toDelete then none else parent.toSet.lookup k) := by
  rw [transferSets_toSet, lookup_range_insert, transferDeletes_toSet, lookup_range_erase]

/-- The parent's `toDelete` after the two loops of a nested `Commit`. -/
theorem lookup_merged_toDelete (parent tr : transaction) (k : String) :
    (transferSets (transferDeletes parent tr.toDelete) tr.toSet).toDelete.lookup k =
      if k ∈ tr.toSet then none else (tr.toDelete.lookup k).or (parent.toDelete.lookup k) := by
  rw [transferSets_toDelete, lookup_range_erase, transferDeletes_toDelete, lookup_range_insert]

/-! ## Reading -/

theorem mem_of_lookup_eq_some {γ : Type} {m : AList (fun _ : String => γ)} {k : String} {v : γ}
    (h : m.lookup k = some v) : k ∈ m := by
  rw [← AList.lookup_isSome, h]
  rfl

theorem visible_nil (st : storage) (k : String) : visible ⟨st, []⟩ k = st.lookup k := rfl

theorem visible_concat (st : storage) (init : List transaction) (tr : transaction)
    (k : String) :
    visible ⟨st, init ++ [tr]⟩ k =
      (tr.toSet.lookup k).or (if k ∈ tr.toDelete then none else st.lookup k) := by
  simp only [visible, List.getLast?_concat]

/-- `Get` returns the visible entry, or the empty string when there is none. -/
theorem Get_eq_visible (db : InMemory) (k : String) : Get db k = (visible db k).getD "" := by
  obtain ⟨st, chain⟩ := db
  rcases chain_snoc chain with rfl | ⟨init, tr, rfl⟩
  · rfl
  · rw [Get_concat, visible_concat]
    cases hs : tr.toSet.lookup k with
    | some v => simp
    | none =>
      cases hd : tr.toDelete.lookup k with
      | some u => simp [mem_of_lookup_eq_some hd]
      | none =>
        have hk : k ∉ tr.toDelete := AList.lookup_eq_none.mp hd
        simp [hk, index]

theorem Get_Set (db : InMemory) (k v : String) : Get (Set db k v) k = v := by
  obtain ⟨st, chain⟩ := db
  rcases chain_snoc chain with rfl | ⟨init, tr, rfl⟩
  · simp [Set_nil, Get_nil, index]
  · simp [Set_concat, Get_concat]

theorem Get_Delete (db : InMemory) (k : String) : Get (Delete db k) k = "" := by
  obtain ⟨st, chain⟩ := db
  rcases chain_snoc chain with rfl | ⟨init, tr, rfl⟩
  · simp [Delete_nil, Get_nil, index]
  · simp [Delete_concat, Get_concat]

theorem Get_StartTransaction (db : InMemory) (k : String) :
    Get (StartTransaction db) k = Get db k := by
  obtain ⟨st, chain⟩ := db
  rcases chain_snoc chain with rfl | ⟨init, tr, rfl⟩
  · simp [StartTransaction_nil, Get, walk, index]
  · have h : init ++ [tr, ⟨copyToSetMap tr.toSet, copyToDeleteMap tr.toDelete⟩] =
        (init ++ [tr]) ++ [⟨copyToSetMap tr.toSet, copyToDeleteMap tr.toDelete⟩] := by simp
    rw [StartTransaction_concat, h, Get_concat, Get_concat]
    simp only [lookup_copyToSetMap, lookup_copyToDeleteMap]

/-! ## Membership after the loops -/

theorem mem_iff_lookup_isSome {γ : Type} (m : AList (fun _ : String => γ)) (k : String) :
    k ∈ m ↔ (m.lookup k).isSome = true :=
  AList.lookup_isSome.symm

theorem mem_copyToSetMap (toSet : storage) (k : String) :
    k ∈ copyToSetMap toSet ↔ k ∈ toSet := by
  rw [mem_iff_lookup_isSome, mem_iff_lookup_isSome, lookup_copyToSetMap]

theorem mem_copyToDeleteMap (toDelete : keySet) (k : String) :
    k ∈ copyToDeleteMap toDelete ↔ k ∈ toDelete := by
  rw [mem_iff_lookup_isSome, mem_iff_lookup_isSome, lookup_copyToDeleteMap]

theorem mem_merged_toSet (parent tr : transaction) (k : String) :
    k ∈ (transferSets (transferDeletes parent tr.toDelete) tr.toSet).toSet ↔
      k ∈ tr.toSet ∨ (k ∉ tr.toDelete ∧ k ∈ parent.toSet) := by
  rw [mem_iff_lookup_isSome, lookup_merged_toSet, mem_iff_lookup_isSome tr.toSet,
    mem_iff_lookup_isSome parent.toSet]
  cases tr.toSet.lookup k with
  | some v => simp
  | none =>
    by_cases hd : k ∈ tr.toDelete
    · simp [hd]
    · simp [hd]

theorem mem_merged_toDelete (parent tr : transaction) (k : String) :
    k ∈ (transferSets (transferDeletes parent tr.toDelete) tr.toSet).toDelete ↔
      k ∉ tr.toSet ∧ (k ∈ tr.toDelete ∨ k ∈ parent.toDelete) := by
  rw [mem_iff_lookup_isSome, lookup_merged_toDelete, mem_iff_lookup_isSome tr.toDelete,
    mem_iff_lookup_isSome parent.toDelete]
  by_cases hs : k ∈ tr.toSet
  · simp [hs]
  · cases tr.toDelete.lookup k with
    | some u => simp [hs]
    | none => simp [hs]

/-- After a nested `Commit` the parent's overlay holds the keys of both overlays. -/
theorem touches_merged (parent tr : transaction) (k : String) :
    touches (transferSets (transferDeletes parent tr.toDelete) tr.toSet) k ↔
      touches tr k ∨ touches parent k := by
  unfold touches
  rw [mem_merged_toSet, mem_merged_toDelete]
  by_cases hs : k ∈ tr.toSet <;> by_cases hd : k ∈ tr.toDelete <;> simp [hs, hd]

/-! ## Invariants of the chain -/

theorem Nested_concat (init : List transaction) (tr : transaction) :
    Nested (init ++ [tr]) ↔
      Nested init ∧ ∀ p ∈ init.getLast?, ∀ key, touches p key → touches tr key := by
  simp [Nested, List.chain'_append]

theorem Nested_concat_pair (init : List transaction) (p tr : transaction) :
    Nested (init ++ [p, tr]) ↔ Nested (init ++ [p]) ∧ ∀ key, touches p key → touches tr key := by
  have h : init ++ [p, tr] = (init ++ [p]) ++ [tr] := by simp
  rw [h, Nested_concat (init ++ [p]) tr, List.getLast?_concat]
  simp

/-- Replacing the last node by one with a larger overlay keeps the chain nested. -/
theorem Nested_grow (init : List transaction) (tr tr1 : transaction)
    (h : Nested (init ++ [tr])) (hsub : ∀ key, touches tr key → touches tr1 key) :
    Nested (init ++ [tr1]) := by
  rw [Nested_concat] at h ⊢
  exact ⟨h.1, fun p hp key hk => hsub key (h.2 p hp key hk)⟩

theorem Nested_step (db : InMemory) (op : Op) (h : Nested db.onGoingTransaction) :
    Nested (step db op).onGoingTransaction := by
  obtain ⟨st, chain⟩ := db
  cases op with
  | get k => exact h
  | set k v =>
    rcases chain_snoc chain with rfl | ⟨init, tr, rfl⟩
    · exact h
    · simp only [step, Set_concat]
      refine Nested_grow init tr _ h ?_
      intro key hk
      by_cases hkey : key = k
      · exact Or.inl (by simp [hkey])
      · rcases hk with hk | hk
        · exact Or.inl (by simp [hk])
        · exact Or.inr (by simp [hk, hkey])
  | delete k =>
    rcases chain_snoc chain with rfl | ⟨init, tr, rfl⟩
    · exact h
    · simp only [step, Delete_concat]
      refine Nested_grow init tr _ h ?_
      intro key hk
      by_cases hkey : key = k
      · exact Or.inr (by simp [hkey])
      · rcases hk with hk | hk
        · exact Or.inl (by simp [hk, hkey])
        · exact Or.inr (by simp [hk])
  | startTransaction =>
    rcases chain_snoc chain with rfl | ⟨init, tr, rfl⟩
    · simp [step, StartTransaction_nil, Nested]
    · simp only [step, StartTransaction_concat]
      rw [Nested_concat_pair]
      refine ⟨h, ?_⟩
      intro key hk
      unfold touches at hk ⊢
      rw [mem_copyToSetMap, mem_copyToDeleteMap]
      exact hk
  | commit =>
    rcases chain_cases chain with rfl | ⟨tr, rfl⟩ | ⟨init, p, tr, rfl⟩
    · exact h
    · simp [step, Commit_single, Nested]
    · simp only [step, Commit_concat]
      rw [Nested_concat_pair] at h
      exact Nested_grow init p _ h.1 (fun key hk => (touches_merged p tr key).mpr (Or.inr hk))
  | rollback =>
    rcases chain_snoc chain with rfl | ⟨init, tr, rfl⟩
    · exact h
    · simp only [step, Rollback_concat]
      exact ((Nested_concat init tr).mp h).1

theorem Nested_run (ops : List Op) (db : InMemory) (h : Nested db.onGoingTransaction) :
    Nested (run db ops).onGoingTransaction := by
  induction ops generalizing db with
  | nil => exact h
  | cons op ops ih => exact ih (step db op) (Nested_step db op h)

theorem Nested_reach (ops : List Op) : Nested (reach ops).onGoingTransaction :=
  Nested_run ops InMemoryDatabase List.chain'_nil

theorem Exclusive_step (db : InMemory) (op : Op)
    (h : ∀ tr ∈ db.onGoingTransaction, Exclusive tr) :
    ∀ tr ∈ (step db op).onGoingTransaction, Exclusive tr := by
  obtain ⟨st, chain⟩ := db
  cases op with
  | get k => exact h
  | set k v =>
    rcases chain_snoc chain with rfl | ⟨init, tr, rfl⟩
    · simp [step, Set_nil]
    · simp only [step, Set_concat]
      intro x hx
      rcases List.mem_append.mp hx with hx | hx
      · exact h x (List.mem_append_left _ hx)
      · rw [List.mem_singleton] at hx
        subst hx
        have htr : Exclusive tr := h tr (by simp)
        intro key hkey
        by_cases hk : key = k
        · simp [hk] at hkey
        · simp [hk] at hkey
          exact htr key hkey
  | delete k =>
    rcases chain_snoc chain with rfl | ⟨init, tr, rfl⟩
    · simp [step, Delete_nil]
    · simp only [step, Delete_concat]
      intro x hx
      rcases List.mem_append.mp hx with hx | hx
      · exact h x (List.mem_append_left _ hx)
      · rw [List.mem_singleton] at hx
        subst hx
        have htr : Exclusive tr := h tr (by simp)
        intro key hkey
        by_cases hk : key = k
        · simp [hk] at hkey
        · simp [hk] at hkey
          exact htr key hkey
  | startTransaction =>
    rcases chain_snoc chain with rfl | ⟨init, tr, rfl⟩
    · simp [step, StartTransaction_nil, Exclusive]
    · simp only [step, StartTransaction_concat]
      intro x hx
      have hsplit : init ++ [tr, ⟨copyToSetMap tr.toSet, copyToDeleteMap tr.toDelete⟩] =
          (init ++ [tr]) ++ [⟨copyToSetMap tr.toSet, copyToDeleteMap tr.toDelete⟩] := by simp
      rw [hsplit] at hx
      rcases List.mem_append.mp hx with hx | hx
      · exact h x hx
      · rw [List.mem_singleton] at hx
        subst hx
        have htr : Exclusive tr := h tr (by simp)
        intro key hkey
        rw [mem_copyToSetMap, mem_copyToDeleteMap] at hkey
        exact htr key hkey
  | commit =>
    rcases chain_cases chain with rfl | ⟨tr, rfl⟩ | ⟨init, p, tr, rfl⟩
    · exact h
    · simp [step, Commit_single]
    · simp only [step, Commit_concat]
      intro x hx
      rcases List.mem_append.mp hx with hx | hx
      · exact h x (List.mem_append_left _ hx)
      · rw [List.mem_singleton] at hx
        subst hx
        have hp : Exclusive p := h p (by simp)
        intro key hkey
        rw [mem_merged_toSet, mem_merged_toDelete] at hkey
        obtain ⟨h1, h2, h3⟩ := hkey
        rcases h1 with h1 | h1
        · exact h2 h1
        · rcases h3 with h3 | h3
          · exact h1.1 h3
          · exact hp key ⟨h1.2, h3⟩
  | rollback =>
    rcases chain_snoc chain with rfl | ⟨init, tr, rfl⟩
    · exact h
    · simp only [step, Rollback_concat]
      exact fun x hx => h x (List.mem_append_left _ hx)

theorem Exclusive_run (ops : List Op) (db : InMemory)
    (h : ∀ tr ∈ db.onGoingTransaction, Exclusive tr) :
    ∀ tr ∈ (run db ops).onGoingTransaction, Exclusive tr := by
  induction ops generalizing db with
  | nil => exact h
  | cons op ops ih => exact ih (step db op) (Exclusive_step db op h)

/-! ## What stays visible -/

theorem visible_Set (db : InMemory) (k v key : String) :
    visible (Set db k v) key = if key = k then some v else visible db key := by
  obtain ⟨st, chain⟩ := db
  rcases chain_snoc chain with rfl | ⟨init, tr, rfl⟩
  · rw [Set_nil, visible_nil, visible_nil]
    by_cases hk : key = k
    · subst hk
      simp
    · simp [hk]
  · rw [Set_concat, visible_concat, visible_concat]
    by_cases hk : key = k
    · subst hk
      simp
    · simp [hk]

theorem visible_Delete (db : InMemory) (k key : String) :
    visible (Delete db k) key = if key = k then none else visible db key := by
  obtain ⟨st, chain⟩ := db
  rcases chain_snoc chain with rfl | ⟨init, tr, rfl⟩
  · rw [Delete_nil, visible_nil, visible_nil]
    by_cases hk : key = k
    · subst hk
      simp
    · simp [hk]
  · rw [Delete_concat, visible_concat, visible_concat]
    by_cases hk : key = k
    · subst hk
      simp
    · simp [hk]

theorem visible_StartTransaction (db : InMemory) (key : String) :
    visible (StartTransaction db) key = visible db key := by
  obtain ⟨st, chain⟩ := db
  rcases chain_snoc chain with rfl | ⟨init, tr, rfl⟩
  · simp [StartTransaction_nil, visible]
  · have h : init ++ [tr, ⟨copyToSetMap tr.toSet, copyToDeleteMap tr.toDelete⟩] =
        (init ++ [tr]) ++ [⟨copyToSetMap tr.toSet, copyToDeleteMap tr.toDelete⟩] := by simp
    rw [StartTransaction_concat, h, visible_concat, visible_concat]
    simp only [lookup_copyToSetMap, mem_copyToDeleteMap]

/-- On a nested chain `Commit` leaves every visible entry as it is. -/
theorem visible_Commit (db : InMemory) (h : Nested db.onGoingTransaction) (key : String) :
    visible (Commit db) key = visible db key := by
  obtain ⟨st, chain⟩ := db
  rcases chain_cases chain with rfl | ⟨tr, rfl⟩ | ⟨init, p, tr, rfl⟩
  · rfl
  · rw [Commit_single, visible_nil, lookup_applySets, lookup_applyDeletes]
    exact (visible_concat st [] tr key).symm
  · have hsplit : init ++ [p, tr] = (init ++ [p]) ++ [tr] := by simp
    have hsub : touches p key → touches tr key := ((Nested_concat_pair init p tr).mp h).2 key
    rw [Commit_concat, visible_concat, hsplit, visible_concat, lookup_merged_toSet]
    cases hs : tr.toSet.lookup key with
    | some v => simp
    | none =>
      have hns : key ∉ tr.toSet := AList.lookup_eq_none.mp hs
      by_cases hd : key ∈ tr.toDelete
      · have hm : key ∈ (transferSets (transferDeletes p tr.toDelete) tr.toSet).toDelete :=
          (mem_merged_toDelete p tr key).mpr ⟨hns, Or.inl hd⟩
        simp [hd, hm]
      · have hp : ¬ touches p key := fun hp => (hsub hp).elim hns hd
        have hps : key ∉ p.toSet := fun hx => hp (Or.inl hx)
        have hpd : key ∉ p.toDelete := fun hx => hp (Or.inr hx)
        have hm : key ∉ (transferSets (transferDeletes p tr.toDelete) tr.toSet).toDelete := by
          rw [mem_merged_toDelete]
          exact fun hx => hx.2.elim hd hpd
        simp [hd, hm, AList.lookup_eq_none.mpr hps]

/-! ## The length of the chain -/

theorem length_Set (db : InMemory) (k v : String) :
    (Set db k v).onGoingTransaction.length = db.onGoingTransaction.length := by
  obtain ⟨st, chain⟩ := db
  rcases chain_snoc chain with rfl | ⟨init, tr, rfl⟩
  · rfl
  · simp [Set_concat]

theorem length_Delete (db : InMemory) (k : String) :
    (Delete db k).onGoingTransaction.length = db.onGoingTransaction.length := by
  obtain ⟨st, chain⟩ := db
  rcases chain_snoc chain with rfl | ⟨init, tr, rfl⟩
  · rfl
  · simp [Delete_concat]

theorem length_StartTransaction (db : InMemory) :
    (StartTransaction db).onGoingTransaction.length = db.onGoingTransaction.length + 1 := by
  obtain ⟨st, chain⟩ := db
  rcases chain_snoc chain with rfl | ⟨init, tr, rfl⟩
  · rfl
  · simp [StartTransaction_concat]

theorem length_Commit (db : InMemory) :
    (Commit db).onGoingTransaction.length = db.onGoingTransaction.length - 1 := by
  obtain ⟨st, chain⟩ := db
  rcases chain_cases chain with rfl | ⟨tr, rfl⟩ | ⟨init, p, tr, rfl⟩
  · rfl
  · rfl
  · simp [Commit_concat]

theorem length_Rollback (db : InMemory) :
    (Rollback db).onGoingTransaction.length = db.onGoingTransaction.length - 1 := by
  obtain ⟨st, chain⟩ := db
  rcases chain_snoc chain with rfl | ⟨init, tr, rfl⟩
  · rfl
  · simp [Rollback_concat]

/-! ## Calls inside an open transaction -/

/-- A call that leaves more nodes than `base` changes neither the storage nor the
nodes of `base`. -/
theorem frame_step (st : storage) (base rest : List transaction) (op : Op) (hrest : rest ≠ [])
    (hlen : base.length + 1 ≤ (step ⟨st, base ++ rest⟩ op).onGoingTransaction.length) :
    ∃ rest1, rest1 ≠ [] ∧ step ⟨st, base ++ rest⟩ op = ⟨st, base ++ rest1⟩ := by
  rcases chain_snoc rest with rfl | ⟨r, tr, rfl⟩
  · exact absurd rfl hrest
  · have hsplit : base ++ (r ++ [tr]) = (base ++ r) ++ [tr] := by simp
    rw [hsplit] at hlen ⊢
    cases op with
    | get k => exact ⟨r ++ [tr], by simp, by simp [step]⟩
    | set k v =>
      refine ⟨r ++ [⟨tr.toSet.insert k v, tr.toDelete.erase k⟩], by simp, ?_⟩
      rw [step, Set_concat, List.append_assoc]
    | delete k =>
      refine ⟨r ++ [⟨tr.toSet.erase k, tr.toDelete.insert k ()⟩], by simp, ?_⟩
      rw [step, Delete_concat, List.append_assoc]
    | startTransaction =>
      refine ⟨r ++ [tr, ⟨copyToSetMap tr.toSet, copyToDeleteMap tr.toDelete⟩], by simp, ?_⟩
      rw [step, StartTransaction_concat, List.append_assoc]
    | commit =>
      rcases chain_snoc r with rfl | ⟨r1, p, rfl⟩
      · simp only [step, length_Commit] at hlen
        simp at hlen
      · have hsplit2 : base ++ (r1 ++ [p]) ++ [tr] = (base ++ r1) ++ [p, tr] := by simp
        rw [hsplit2]
        refine ⟨r1 ++ [transferSets (transferDeletes p tr.toDelete) tr.toSet], by simp, ?_⟩
        rw [step, Commit_concat, List.append_assoc]
    | rollback =>
      simp only [step, Rollback_concat] at hlen ⊢
      refine ⟨r, ?_, rfl⟩
      rintro rfl
      simp at hlen

theorem frame_run (st : storage) (base : List transaction) (body : List Op) :
    ∀ rest : List transaction, rest ≠ [] →
      keepsOpen (base.length + 1) ⟨st, base ++ rest⟩ body = true →
      ∃ rest1, rest1 ≠ [] ∧ run ⟨st, base ++ rest⟩ body = ⟨st, base ++ rest1⟩ := by
  induction body with
  | nil => exact fun rest hrest _ => ⟨rest, hrest, rfl⟩
  | cons op body ih =>
    intro rest hrest hopen
    simp only [keepsOpen, Bool.and_eq_true, decide_eq_true_eq] at hopen
    obtain ⟨rest1, hrest1, hstep⟩ := frame_step st base rest op hrest hopen.1
    have hopen2 := hopen.2
    rw [hstep] at hopen2
    obtain ⟨rest2, hrest2, hrun⟩ := ih rest1 hrest1 hopen2
    exact ⟨rest2, hrest2, by rw [run, hstep, hrun]⟩

/-- Starting a transaction, working inside it and rolling it back returns the
database to the state before the start. -/
theorem rollback_restores (s : InMemory) (body : List Op)
    (hopen : keepsOpen (s.onGoingTransaction.length + 1) (StartTransaction s) body = true)
    (hclose : (run (StartTransaction s) body).onGoingTransaction.length =
      s.onGoingTransaction.length + 1) :
    Rollback (run (StartTransaction s) body) = s := by
  obtain ⟨st, base⟩ := s
  have hstart : ∃ tr, StartTransaction ⟨st, base⟩ = ⟨st, base ++ [tr]⟩ := by
    rcases chain_snoc base with rfl | ⟨init, tr, rfl⟩
    · exact ⟨_, StartTransaction_nil st⟩
    · exact ⟨⟨copyToSetMap tr.toSet, copyToDeleteMap tr.toDelete⟩,
        by rw [StartTransaction_concat, List.append_assoc]; rfl⟩
  obtain ⟨tr0, h0⟩ := hstart
  rw [h0] at hopen hclose ⊢
  obtain ⟨rest, hrest, hrun⟩ := frame_run st base body [tr0] (by simp) hopen
  rw [hrun] at hclose ⊢
  rcases chain_snoc rest with rfl | ⟨r, tr, rfl⟩
  · exact absurd rfl hrest
  · have hr : r = [] := by
      simp at hclose
      exact hclose
    subst hr
    exact Rollback_concat st base tr

/-! ## Committed transactions against direct writes -/

/-- The transactional run of a well bracketed sequence and the run of the same
sequence without its boundaries end with the same entries in the storage. -/
theorem committed_sim (body : List Op) :
    ∀ (d : Nat) (db : InMemory) (st1 : storage), wellBracketed d body = true →
      db.onGoingTransaction.length = d → Nested db.onGoingTransaction →
      (∀ k, visible db k = st1.lookup k) →
      (run db body).onGoingTransaction = [] ∧
        ∀ k, (run db body).storage.lookup k =
          (run ⟨st1, []⟩ (withoutBoundaries body)).storage.lookup k := by
  induction body with
  | nil =>
    intro d db st1 hwb hlen _ hvis
    obtain ⟨st, chain⟩ := db
    simp only [wellBracketed, beq_iff_eq] at hwb
    subst hwb
    have hchain : chain = [] := List.length_eq_zero.mp hlen
    subst hchain
    exact ⟨rfl, hvis⟩
  | cons op body ih =>
    intro d db st1 hwb hlen hnest hvis
    cases op with
    | get k =>
      simp only [wellBracketed] at hwb
      exact ih d db st1 hwb hlen hnest hvis
    | set k v =>
      simp only [wellBracketed] at hwb
      refine ih d (Set db k v) (st1.insert k v) hwb ((length_Set db k v).trans hlen)
        (Nested_step db (.set k v) hnest) ?_
      intro key
      rw [visible_Set, hvis]
      by_cases hk : key = k
      · subst hk
        simp
      · simp [hk]
    | delete k =>
      simp only [wellBracketed] at hwb
      refine ih d (Delete db k) (st1.erase k) hwb ((length_Delete db k).trans hlen)
        (Nested_step db (.delete k) hnest) ?_
      intro key
      rw [visible_Delete, hvis]
      by_cases hk : key = k
      · subst hk
        simp
      · simp [hk]
    | startTransaction =>
      simp only [wellBracketed] at hwb
      refine ih (d + 1) (StartTransaction db) st1 hwb ?_
        (Nested_step db .startTransaction hnest) ?_
      · rw [length_StartTransaction, hlen]
      · intro key
        rw [visible_StartTransaction, hvis]
    | commit =>
      cases d with
      | zero => simp [wellBracketed] at hwb
      | succ d =>
        simp only [wellBracketed] at hwb
        refine ih d (Commit db) st1 hwb ?_ (Nested_step db .commit hnest) ?_
        · rw [length_Commit, hlen]
          rfl
        · intro key
          rw [visible_Commit db hnest, hvis]
    | rollback => simp [wellBracketed] at hwb

/-- Two maps with the same entry at every key hold the same entries. -/
theorem entries_perm_of_lookup_eq (m1 m2 : storage) (h : ∀ k, m1.lookup k = m2.lookup k) :
    m1.entries.Perm m2.entries := by
  refine List.lookup_ext m1.nodupKeys m2.nodupKeys ?_
  intro x y
  have hx : List.dlookup x m1.entries = List.dlookup x m2.entries := h x
  rw [hx]

/-! ## The claims -/

/-- C1: in every state reached from `InMemoryDatabase()` by any sequence of calls,
with or without an active transaction of any depth, `Set(k, v)` followed by
`Get(k)` returns `v`. -/
theorem set_then_get (ops : List Op) (k v : String) :
    Get (Set (reach ops) k v) k = v :=
  Get_Set (reach ops) k v

/-- C2: in every reachable state, with or without an active transaction of any
depth, `Delete(k)` followed by `Get(k)` returns the empty string, wherever `k`
was set before. -/
theorem delete_then_get (ops : List Op) (k : String) :
    Get (Delete (reach ops) k) k = "" :=
  Get_Delete (reach ops) k

/-- C3: from a reachable state without a transaction, `StartTransaction`, then any
calls that keep at least that transaction open, then the `Rollback` that closes
it, end with no transaction and the storage of the beginning, so every `Get`
returns what it returned at the beginning. -/
theorem rollback_outermost_restores (ops body : List Op)
    (hs : (reach ops).onGoingTransaction = [])
    (hopen : keepsOpen 1 (StartTransaction (reach ops)) body = true)
    (hclose : (run (StartTransaction (reach ops)) body).onGoingTransaction.length = 1) :
    (Rollback (run (StartTransaction (reach ops)) body)).onGoingTransaction = [] ∧
      (Rollback (run (StartTransaction (reach ops)) body)).storage = (reach ops).storage ∧
      ∀ k, Get (Rollback (run (StartTransaction (reach ops)) body)) k = Get (reach ops) k := by
  have h : Rollback (run (StartTransaction (reach ops)) body) = reach ops := by
    apply rollback_restores
    · rw [hs]
      exact hopen
    · rw [hs]
      exact hclose
  rw [h]
  exact ⟨hs, rfl, fun _ => rfl⟩


/-- C3 at a run that sets a key, opens a transaction, overwrites the key, deletes
it in a committed nested transaction and rolls back. -/
theorem rollback_outermost_restores_witness :
    (reach [.set "a" "1"]).onGoingTransaction = [] ∧
      keepsOpen 1 (StartTransaction (reach [.set "a" "1"]))
        [.set "a" "2", .startTransaction, .delete "a", .commit] = true ∧
      (run (StartTransaction (reach [.set "a" "1"]))
        [.set "a" "2", .startTransaction, .delete "a", .commit]).onGoingTransaction.length = 1 ∧
      ((Rollback (run (StartTransaction (reach [.set "a" "1"]))
          [.set "a" "2", .startTransaction, .delete "a", .commit])).onGoingTransaction = [] ∧
        (Rollback (run (StartTransaction (reach [.set "a" "1"]))
          [.set "a" "2", .startTransaction, .delete "a", .commit])).storage =
          (reach [.set "a" "1"]).storage ∧
        ∀ k, Get (Rollback (run (StartTransaction (reach [.set "a" "1"]))
          [.set "a" "2", .startTransaction, .delete "a", .commit])) k =
          Get (reach [.set "a" "1"]) k) :=
  ⟨by decide, by decide, by decide,
    rollback_outermost_restores [.set "a" "1"]
      [.set "a" "2", .startTransaction, .delete "a", .commit]
      (by decide) (by decide) (by decide)⟩

/-- C4: from a reachable state with an active transaction, `StartTransaction`,
then any calls that keep the new node open, then the `Rollback` that closes it,
end in the state of the beginning: the same chain with the same `toSet` and
`toDelete` in every node and the same storage, so every `Get` returns what it
returned at the beginning. -/
theorem rollback_nested_restores (ops body : List Op)
    (hs : (reach ops).onGoingTransaction ≠ [])
    (hopen : keepsOpen ((reach ops).onGoingTransaction.length + 1)
      (StartTransaction (reach ops)) body = true)
    (hclose : (run (StartTransaction (reach ops)) body).onGoingTransaction.length =
      (reach ops).onGoingTransaction.length + 1) :
    Rollback (run (StartTransaction (reach ops)) body) = reach ops ∧
      (Rollback (run (StartTransaction (reach ops)) body)).onGoingTransaction ≠ [] ∧
      ∀ k, Get (Rollback (run (StartTransaction (reach ops)) body)) k = Get (reach ops) k := by
  have h : Rollback (run (StartTransaction (reach ops)) body) = reach ops :=
    rollback_restores (reach ops) body hopen hclose
  rw [h]
  exact ⟨rfl, hs, fun _ => rfl⟩


/-- C4 at a nested transaction that deletes a key, opens and rolls back a deeper
transaction and is then rolled back itself. -/
theorem rollback_nested_restores_witness :
    (reach [.set "a" "1", .startTransaction, .set "a" "2"]).onGoingTransaction ≠ [] ∧
      keepsOpen
        ((reach [.set "a" "1", .startTransaction, .set "a" "2"]).onGoingTransaction.length + 1)
        (StartTransaction (reach [.set "a" "1", .startTransaction, .set "a" "2"]))
        [.delete "a", .startTransaction, .set "b" "3", .rollback] = true ∧
      (run (StartTransaction (reach [.set "a" "1", .startTransaction, .set "a" "2"]))
        [.delete "a", .startTransaction, .set "b" "3", .rollback]).onGoingTransaction.length =
        (reach [.set "a" "1", .startTransaction, .set "a" "2"]).onGoingTransaction.length + 1 ∧
      ((Rollback (run (StartTransaction (reach [.set "a" "1", .startTransaction, .set "a" "2"]))
          [.delete "a", .startTransaction, .set "b" "3", .rollback])) =
          reach [.set "a" "1", .startTransaction, .set "a" "2"] ∧
        (Rollback (run (StartTransaction (reach [.set "a" "1", .startTransaction, .set "a" "2"]))
          [.delete "a", .startTransaction, .set "b" "3", .rollback])).onGoingTransaction ≠ [] ∧
        ∀ k,
          Get (Rollback (run (StartTransaction (reach [.set "a" "1", .startTransaction, .set "a" "2"]))
          [.delete "a", .startTransaction, .set "b" "3", .rollback])) k =
          Get (reach [.set "a" "1", .startTransaction, .set "a" "2"]) k) :=
  ⟨by decide, by decide, by decide,
    rollback_nested_restores [.set "a" "1", .startTransaction, .set "a" "2"]
      [.delete "a", .startTransaction, .set "b" "3", .rollback]
      (by decide) (by decide) (by decide)⟩

/-- C5: from a reachable state without a transaction, a well bracketed sequence of
`Set`, `Delete`, `StartTransaction` and `Commit` calls ends without a
transaction, and its storage holds the same entries as the storage after the
same sequence with the `StartTransaction` and `Commit` calls removed. -/
theorem committed_equals_direct (ops body : List Op)
    (hs : (reach ops).onGoingTransaction = [])
    (hwb : wellBracketed 0 body = true) :
    (run (reach ops) body).onGoingTransaction = [] ∧
      (∀ k, (run (reach ops) body).storage.lookup k =
        (run (reach ops) (withoutBoundaries body)).storage.lookup k) ∧
      (run (reach ops) body).storage.entries.Perm
        (run (reach ops) (withoutBoundaries body)).storage.entries := by
  generalize reach ops = s at hs ⊢
  obtain ⟨st, chain⟩ := s
  simp only at hs
  subst hs
  obtain ⟨h1, h2⟩ := committed_sim body 0 ⟨st, []⟩ st hwb rfl List.chain'_nil (fun _ => rfl)
  exact ⟨h1, h2, entries_perm_of_lookup_eq _ _ h2⟩


/-- C5 at two nested committed transactions over a storage that holds one key. -/
theorem committed_equals_direct_witness :
    (reach [.set "a" "1"]).onGoingTransaction = [] ∧
      wellBracketed 0
          [.startTransaction, .set "a" "2", .startTransaction, .delete "a",
            .set "b" "3", .commit, .commit] = true ∧
      ((run (reach [.set "a" "1"])
          [.startTransaction, .set "a" "2", .startTransaction, .delete "a",
            .set "b" "3", .commit, .commit]).onGoingTransaction = [] ∧
        (∀ k, (run (reach [.set "a" "1"])
          [.startTransaction, .set "a" "2", .startTransaction, .delete "a",
            .set "b" "3", .commit, .commit]).storage.lookup k =
          (run (reach [.set "a" "1"]) (withoutBoundaries
          [.startTransaction, .set "a" "2", .startTransaction, .delete "a",
            .set "b" "3", .commit, .commit])).storage.lookup k) ∧
        (run (reach [.set "a" "1"])
          [.startTransaction, .set "a" "2", .startTransaction, .delete "a",
            .set "b" "3", .commit, .commit]).storage.entries.Perm
          (run (reach [.set "a" "1"]) (withoutBoundaries
          [.startTransaction, .set "a" "2", .startTransaction, .delete "a",
            .set "b" "3", .commit, .commit])).storage.entries) :=
  ⟨by decide, by decide,
    committed_equals_direct [.set "a" "1"]
          [.startTransaction, .set "a" "2", .startTransaction, .delete "a",
            .set "b" "3", .commit, .commit]
      (by decide) (by decide)⟩

/-- C6: in a reachable state with an active transaction, `Get(k)` right after
`StartTransaction` returns what `Get(k)` returned right before it; the call
appends one node whose `toSet` and `toDelete` hold the entries of the node that
was last, and leaves the storage as it is. -/
theorem nested_snapshot (ops : List Op) (hs : (reach ops).onGoingTransaction ≠ []) :
    (∀ k, Get (StartTransaction (reach ops)) k = Get (reach ops) k) ∧
      ∃ tr tr1, (reach ops).onGoingTransaction.getLast? = some tr ∧
        (StartTransaction (reach ops)).onGoingTransaction =
          (reach ops).onGoingTransaction ++ [tr1] ∧
        (StartTransaction (reach ops)).storage = (reach ops).storage ∧
        (∀ k, tr1.toSet.lookup k = tr.toSet.lookup k) ∧
        (∀ k, k ∈ tr1.toDelete ↔ k ∈ tr.toDelete) := by
  refine ⟨fun k => Get_StartTransaction (reach ops) k, ?_⟩
  generalize reach ops = s at hs ⊢
  obtain ⟨st, chain⟩ := s
  rcases chain_snoc chain with rfl | ⟨init, tr, rfl⟩
  · exact absurd rfl hs
  · refine ⟨tr, ⟨copyToSetMap tr.toSet, copyToDeleteMap tr.toDelete⟩, ?_, ?_, ?_, ?_, ?_⟩
    · simp
    · rw [StartTransaction_concat]
      simp
    · rw [StartTransaction_concat]
    · exact fun k => lookup_copyToSetMap tr.toSet k
    · exact fun k => mem_copyToDeleteMap tr.toDelete k


/-- C6 at a transaction that has overwritten a key of the storage. -/
theorem nested_snapshot_witness :
    (reach [.set "a" "1", .startTransaction, .set "a" "2"]).onGoingTransaction ≠ [] ∧
      ((∀ k, Get (StartTransaction (reach [.set "a" "1", .startTransaction, .set "a" "2"])) k =
          Get (reach [.set "a" "1", .startTransaction, .set "a" "2"]) k) ∧
        ∃ tr tr1,
          (reach [.set "a" "1", .startTransaction, .set "a" "2"]).onGoingTransaction.getLast? =
            some tr ∧
          (StartTransaction (reach [.set "a" "1", .startTransaction, .set "a" "2"])).onGoingTransaction =
            (reach [.set "a" "1", .startTransaction, .set "a" "2"]).onGoingTransaction ++ [tr1] ∧
          (StartTransaction (reach [.set "a" "1", .startTransaction, .set "a" "2"])).storage =
            (reach [.set "a" "1", .startTransaction, .set "a" "2"]).storage ∧
          (∀ k, tr1.toSet.lookup k = tr.toSet.lookup k) ∧
          (∀ k, k ∈ tr1.toDelete ↔ k ∈ tr.toDelete)) :=
  ⟨by decide, nested_snapshot [.set "a" "1", .startTransaction, .set "a" "2"] (by decide)⟩

/-- C7: in every reachable state, at any nesting depth and also without a
transaction, `Get(k)` right after `Commit` returns what `Get(k)` returned right
before it. -/
theorem commit_keeps_get (ops : List Op) (k : String) :
    Get (Commit (reach ops)) k = Get (reach ops) k := by
  rw [Get_eq_visible, Get_eq_visible, visible_Commit (reach ops) (Nested_reach ops)]

/-- C8: in every reachable state no node of the chain, active or not, has a key
both in its `toSet` and in its `toDelete`. -/
theorem mutual_exclusion (ops : List Op) (tr : transaction)
    (htr : tr ∈ (reach ops).onGoingTransaction) (k : String) :
    ¬ (k ∈ tr.toSet ∧ k ∈ tr.toDelete) :=
  Exclusive_run ops InMemoryDatabase (fun _ h => absurd h (List.not_mem_nil _)) tr htr k


/-- C8 at the inner node of a chain of two, which deleted a key its parent set. -/
theorem mutual_exclusion_witness :
    ((⟨∅, AList.insert "a" () ∅⟩ : transaction) ∈
        (reach [.startTransaction, .set "a" "1", .startTransaction, .delete "a"]).onGoingTransaction) ∧
      ∀ k, ¬ (k ∈ (⟨∅, AList.insert "a" () ∅⟩ : transaction).toSet ∧
        k ∈ (⟨∅, AList.insert "a" () ∅⟩ : transaction).toDelete) :=
  ⟨List.mem_cons_of_mem _ (List.mem_singleton.mpr rfl),
    fun k => mutual_exclusion [.startTransaction, .set "a" "1", .startTransaction, .delete "a"]
      ⟨∅, AList.insert "a" () ∅⟩ (List.mem_cons_of_mem _ (List.mem_singleton.mpr rfl)) k⟩

/-- C9: without an active transaction `Commit` and `Rollback` return the state
unchanged, so the storage, the absence of a transaction and every `Get` stay as
they are, and any number of such calls returns the same state. -/
theorem commit_rollback_noop (db : InMemory) (h : db.onGoingTransaction = []) :
    Commit db = db ∧ Rollback db = db ∧
      (Commit db).storage = db.storage ∧ (Rollback db).storage = db.storage ∧
      (Commit db).onGoingTransaction = [] ∧ (Rollback db).onGoingTransaction = [] ∧
      (∀ k, Get (Commit db) k = Get db k) ∧ (∀ k, Get (Rollback db) k = Get db k) ∧
      ∀ calls : List Op, (∀ op ∈ calls, op = Op.commit ∨ op = Op.rollback) →
        run db calls = db := by
  obtain ⟨st, chain⟩ := db
  simp only at h
  subst h
  refine ⟨rfl, rfl, rfl, rfl, rfl, rfl, fun _ => rfl, fun _ => rfl, ?_⟩
  intro calls
  induction calls with
  | nil => exact fun _ => rfl
  | cons op calls ih =>
    intro hall
    have hop := hall op (List.mem_cons_self op calls)
    have hrest : ∀ x ∈ calls, x = Op.commit ∨ x = Op.rollback :=
      fun x hx => hall x (List.mem_cons_of_mem op hx)
    rcases hop with rfl | rfl
    · exact ih hrest
    · exact ih hrest


/-- C9 at a database that holds one key and has no transaction. -/
theorem commit_rollback_noop_witness :
    (reach [.set "a" "1"]).onGoingTransaction = [] ∧
      (Commit (reach [.set "a" "1"]) = reach [.set "a" "1"] ∧
        Rollback (reach [.set "a" "1"]) = reach [.set "a" "1"] ∧
        (Commit (reach [.set "a" "1"])).storage = (reach [.set "a" "1"]).storage ∧
        (Rollback (reach [.set "a" "1"])).storage = (reach [.set "a" "1"]).storage ∧
        (Commit (reach [.set "a" "1"])).onGoingTransaction = [] ∧
        (Rollback (reach [.set "a" "1"])).onGoingTransaction = [] ∧
        (∀ k, Get (Commit (reach [.set "a" "1"])) k = Get (reach [.set "a" "1"]) k) ∧
        (∀ k, Get (Rollback (reach [.set "a" "1"])) k = Get (reach [.set "a" "1"]) k) ∧
        ∀ calls : List Op, (∀ op ∈ calls, op = Op.commit ∨ op = Op.rollback) →
          run (reach [.set "a" "1"]) calls = reach [.set "a" "1"]) :=
  ⟨by decide, commit_rollback_noop (reach [.set "a" "1"]) (by decide)⟩

/-- C10: in a reachable state whose chain is the single node `F`, `Commit` leaves
no transaction, and the storage then maps a key to `F.toSet[k]` when the key is
in `F.toSet`, to nothing when it is in `F.toDelete`, and to its earlier entry
otherwise. -/
theorem commit_outermost (ops : List Op) (F : transaction)
    (h : (reach ops).onGoingTransaction = [F]) :
    (Commit (reach ops)).onGoingTransaction = [] ∧
      ∀ k, (Commit (reach ops)).storage.lookup k =
        if k ∈ F.toSet then F.toSet.lookup k
        else if k ∈ F.toDelete then none
        else (reach ops).storage.lookup k := by
  generalize reach ops = s at h ⊢
  obtain ⟨st, chain⟩ := s
  simp only at h
  subst h
  refine ⟨rfl, fun k => ?_⟩
  rw [Commit_single, lookup_applySets, lookup_applyDeletes]
  by_cases hk : k ∈ F.toSet
  · rw [if_pos hk]
    obtain ⟨v, hv⟩ := Option.isSome_iff_exists.mp ((mem_iff_lookup_isSome F.toSet k).mp hk)
    simp [hv]
  · rw [if_neg hk, AList.lookup_eq_none.mpr hk]
    rfl

/-- C10 at a single transaction that overwrote one key and deleted another. -/
theorem commit_outermost_witness :
    (reach [.set "a" "1", .startTransaction, .set "a" "2", .delete "b"]).onGoingTransaction =
        [⟨AList.insert "a" "2" ∅, AList.insert "b" () ∅⟩] ∧
      ((Commit (reach [.set "a" "1", .startTransaction, .set "a" "2", .delete "b"])).onGoingTransaction = [] ∧
        ∀ k, (Commit (reach [.set "a" "1", .startTransaction, .set "a" "2", .delete "b"])).storage.lookup k =
          if k ∈ (⟨AList.insert "a" "2" ∅, AList.insert "b" () ∅⟩ : transaction).toSet then
            (⟨AList.insert "a" "2" ∅, AList.insert "b" () ∅⟩ : transaction).toSet.lookup k
          else if k ∈ (⟨AList.insert "a" "2" ∅, AList.insert "b" () ∅⟩ : transaction).toDelete then none
          else (reach [.set "a" "1", .startTransaction, .set "a" "2", .delete "b"]).storage.lookup k) :=
  ⟨rfl,
    commit_outermost [.set "a" "1", .startTransaction, .set "a" "2", .delete "b"]
      ⟨AList.insert "a" "2" ∅, AList.insert "b" () ∅⟩ rfl⟩

/-- Two maps with the same entry at every key hold the same entries, for any type
of values. -/
theorem entries_perm_of_lookup {γ : Type} (m1 m2 : AList (fun _ : String => γ))
    (h : ∀ k, m1.lookup k = m2.lookup k) : m1.entries.Perm m2.entries := by
  refine List.lookup_ext m1.nodupKeys m2.nodupKeys ?_
  intro x y
  have hx : List.dlookup x m1.entries = List.dlookup x m2.entries := h x
  rw [hx]

theorem Exclusive_reach (ops : List Op) :
    ∀ tr ∈ (reach ops).onGoingTransaction, Exclusive tr :=
  Exclusive_run ops InMemoryDatabase (fun _ h => absurd h (List.not_mem_nil _))

/-- C11: in a reachable state whose chain ends in a parent `P` and its nested node
`C`, `Commit` leaves the storage and the nodes before `P` as they are and puts
one node in the place of `P` and `C`: it holds the value of `C` for every key of
`C.toSet` and does not delete it, it deletes every key of `C.toDelete` and does
not set it, and it has the entries of `P` at every key that `C` does not hold. -/
theorem commit_nested (ops : List Op) (init : List transaction) (P C : transaction)
    (h : (reach ops).onGoingTransaction = init ++ [P, C]) :
    ∃ P1, (Commit (reach ops)).onGoingTransaction = init ++ [P1] ∧
      (Commit (reach ops)).onGoingTransaction.getLast? = some P1 ∧
      (Commit (reach ops)).storage = (reach ops).storage ∧
      (∀ k v, C.toSet.lookup k = some v → P1.toSet.lookup k = some v ∧ k ∉ P1.toDelete) ∧
      (∀ k, k ∈ C.toDelete → k ∈ P1.toDelete ∧ k ∉ P1.toSet) ∧
      (∀ k, k ∉ C.toSet → k ∉ C.toDelete →
        P1.toSet.lookup k = P.toSet.lookup k ∧ (k ∈ P1.toDelete ↔ k ∈ P.toDelete)) := by
  have hexcl : Exclusive C := Exclusive_reach ops C (by rw [h]; simp)
  generalize reach ops = s at h
  obtain ⟨st, chain⟩ := s
  simp only at h
  subst h
  refine ⟨transferSets (transferDeletes P C.toDelete) C.toSet, ?_, ?_, ?_, ?_, ?_, ?_⟩
  · rw [Commit_concat]
  · rw [Commit_concat]
    exact List.getLast?_concat init
  · rw [Commit_concat]
  · intro k v hv
    have hmem : k ∈ C.toSet := mem_of_lookup_eq_some hv
    refine ⟨?_, ?_⟩
    · rw [lookup_merged_toSet, hv]
      rfl
    · rw [mem_merged_toDelete]
      exact fun hx => hx.1 hmem
  · intro k hk
    have hns : k ∉ C.toSet := fun hx => hexcl k ⟨hx, hk⟩
    exact ⟨(mem_merged_toDelete P C k).mpr ⟨hns, Or.inl hk⟩,
      fun hx => ((mem_merged_toSet P C k).mp hx).elim hns (fun hy => hy.1 hk)⟩
  · intro k hs hd
    refine ⟨?_, ?_⟩
    · rw [lookup_merged_toSet, AList.lookup_eq_none.mpr hs, if_neg hd]
      rfl
    · rw [mem_merged_toDelete]
      exact ⟨fun hx => hx.2.elim (fun hy => absurd hy hd) id, fun hx => ⟨hs, Or.inr hx⟩⟩

/-- C11 at a nested node that deleted the key its parent set and set another. -/
theorem commit_nested_witness :
    (reach
        [.startTransaction, .set "a" "1", .startTransaction, .delete "a", .set "b" "2"]).onGoingTransaction =
        [] ++ [(⟨AList.insert "a" "1" ∅, ∅⟩ : transaction),
          (⟨AList.insert "b" "2" ∅, AList.insert "a" () ∅⟩ : transaction)] ∧
    ∃ P1, (Commit (reach
        [.startTransaction, .set "a" "1", .startTransaction, .delete "a", .set "b" "2"])).onGoingTransaction = [] ++ [P1] ∧
      (Commit (reach
        [.startTransaction, .set "a" "1", .startTransaction, .delete "a", .set "b" "2"])).onGoingTransaction.getLast? = some P1 ∧
      (Commit (reach
        [.startTransaction, .set "a" "1", .startTransaction, .delete "a", .set "b" "2"])).storage =
        (reach
        [.startTransaction, .set "a" "1", .startTransaction, .delete "a", .set "b" "2"]).storage ∧
      (∀ k v, (⟨AList.insert "b" "2" ∅, AList.insert "a" () ∅⟩ : transaction).toSet.lookup k = some v →
        P1.toSet.lookup k = some v ∧ k ∉ P1.toDelete) ∧
      (∀ k, k ∈ (⟨AList.insert "b" "2" ∅, AList.insert "a" () ∅⟩ : transaction).toDelete →
        k ∈ P1.toDelete ∧ k ∉ P1.toSet) ∧
      (∀ k, k ∉ (⟨AList.insert "b" "2" ∅, AList.insert "a" () ∅⟩ : transaction).toSet →
        k ∉ (⟨AList.insert "b" "2" ∅, AList.insert "a" () ∅⟩ : transaction).toDelete →
        P1.toSet.lookup k = (⟨AList.insert "a" "1" ∅, ∅⟩ : transaction).toSet.lookup k ∧
          (k ∈ P1.toDelete ↔ k ∈ (⟨AList.insert "a" "1" ∅, ∅⟩ : transaction).toDelete)) :=
  ⟨rfl,
    commit_nested [.startTransaction, .set "a" "1", .startTransaction, .delete "a", .set "b" "2"] []
      (⟨AList.insert "a" "1" ∅, ∅⟩ : transaction)
      (⟨AList.insert "b" "2" ∅, AList.insert "a" () ∅⟩ : transaction) rfl⟩

/-- C12: in a reachable state with an active transaction every call leaves the
storage as it is, except the `Commit` of a node without a parent; and in every
state `Get` changes nothing. -/
theorem storage_only_outermost_commit (ops : List Op) (op : Op)
    (hs : (reach ops).onGoingTransaction ≠ [])
    (hop : op = Op.commit → parentOfLast (reach ops).onGoingTransaction ≠ none) :
    (step (reach ops) op).storage = (reach ops).storage ∧
      ∀ (db : InMemory) (k : String), step db (Op.get k) = db := by
  refine ⟨?_, fun _ _ => rfl⟩
  generalize reach ops = s at hs hop
  obtain ⟨st, chain⟩ := s
  rcases chain_cases chain with rfl | ⟨tr, rfl⟩ | ⟨init, p, tr, rfl⟩
  · exact absurd rfl hs
  · cases op with
    | get k => rfl
    | set k v => rfl
    | delete k => rfl
    | startTransaction => rfl
    | commit => exact absurd rfl (hop rfl)
    | rollback => rfl
  · have hsplit : init ++ [p, tr] = (init ++ [p]) ++ [tr] := by simp
    cases op with
    | get k => rfl
    | set k v => rw [step, hsplit, Set_concat]
    | delete k => rw [step, hsplit, Delete_concat]
    | startTransaction => rw [step, hsplit, StartTransaction_concat]
    | commit => rw [step, Commit_concat]
    | rollback => rw [step, hsplit, Rollback_concat]

/-- C12 at the `Commit` of a nested node over a storage that holds one key. -/
theorem storage_only_outermost_commit_witness :
    (reach [.set "a" "1", .startTransaction, .startTransaction, .delete "a"]).onGoingTransaction ≠
        [] ∧
      (Op.commit = Op.commit → parentOfLast
        (reach [.set "a" "1", .startTransaction, .startTransaction, .delete "a"]).onGoingTransaction ≠
          none) ∧
      ((step (reach [.set "a" "1", .startTransaction, .startTransaction, .delete "a"])
          Op.commit).storage =
          (reach [.set "a" "1", .startTransaction, .startTransaction, .delete "a"]).storage ∧
        ∀ (db : InMemory) (k : String), step db (Op.get k) = db) :=
  ⟨by decide, fun _ => by decide,
    storage_only_outermost_commit
      [.set "a" "1", .startTransaction, .startTransaction, .delete "a"] Op.commit
      (by decide) (fun _ => by decide)⟩

/-- C13: in every reachable state `StartTransaction` adds one node to the chain,
`Commit` and `Rollback` remove one when there is one and leave an empty chain
empty, `Get`, `Set` and `Delete` keep the number of nodes, and `Set` and
`Delete` leave every node but the last as it is. -/
theorem depth_state_machine (ops : List Op) (k v : String) :
    (StartTransaction (reach ops)).onGoingTransaction.length =
        (reach ops).onGoingTransaction.length + 1 ∧
      (Commit (reach ops)).onGoingTransaction.length =
        (reach ops).onGoingTransaction.length - 1 ∧
      (Rollback (reach ops)).onGoingTransaction.length =
        (reach ops).onGoingTransaction.length - 1 ∧
      (step (reach ops) (Op.get k)).onGoingTransaction.length =
        (reach ops).onGoingTransaction.length ∧
      (Set (reach ops) k v).onGoingTransaction.length = (reach ops).onGoingTransaction.length ∧
      (Delete (reach ops) k).onGoingTransaction.length = (reach ops).onGoingTransaction.length ∧
      (Set (reach ops) k v).onGoingTransaction.dropLast =
        (reach ops).onGoingTransaction.dropLast ∧
      (Delete (reach ops) k).onGoingTransaction.dropLast =
        (reach ops).onGoingTransaction.dropLast := by
  refine ⟨length_StartTransaction _, length_Commit _, length_Rollback _, rfl, length_Set _ k v,
    length_Delete _ k, ?_, ?_⟩
  · generalize reach ops = s
    obtain ⟨st, chain⟩ := s
    rcases chain_snoc chain with rfl | ⟨init, tr, rfl⟩
    · rfl
    · rw [Set_concat]
      simp only [List.dropLast_concat]
  · generalize reach ops = s
    obtain ⟨st, chain⟩ := s
    rcases chain_snoc chain with rfl | ⟨init, tr, rfl⟩
    · rfl
    · rw [Delete_concat]
      simp only [List.dropLast_concat]

/-- C14: in every reachable state `Get(k)` is the storage value of `k`, the empty
string when absent, if there is no transaction; otherwise, with `A` the last
node of the chain, it is `A.toSet[k]` if `k` is in `A.toSet`, else the empty
string if `k` is in `A.toDelete`, else the storage value of `k`. -/
theorem get_resolves_last (ops : List Op) (k : String) :
    ((reach ops).onGoingTransaction = [] →
        Get (reach ops) k = ((reach ops).storage.lookup k).getD "") ∧
      ∀ A, (reach ops).onGoingTransaction.getLast? = some A →
        Get (reach ops) k =
          if k ∈ A.toSet then (A.toSet.lookup k).getD ""
          else if k ∈ A.toDelete then ""
          else ((reach ops).storage.lookup k).getD "" := by
  generalize reach ops = s
  obtain ⟨st, chain⟩ := s
  rcases chain_snoc chain with rfl | ⟨init, tr, rfl⟩
  · exact ⟨fun _ => rfl, fun A hA => by simp at hA⟩
  · refine ⟨fun h => by simp at h, fun A hA => ?_⟩
    have hA1 : tr = A := by
      simpa using hA
    subst hA1
    rw [Get_concat]
    by_cases hset : k ∈ tr.toSet
    · obtain ⟨v, hv⟩ :=
        Option.isSome_iff_exists.mp ((mem_iff_lookup_isSome tr.toSet k).mp hset)
      simp [hset, hv]
    · rw [if_neg hset, AList.lookup_eq_none.mpr hset]
      by_cases hdel : k ∈ tr.toDelete
      · obtain ⟨u, hu⟩ :=
          Option.isSome_iff_exists.mp ((mem_iff_lookup_isSome tr.toDelete k).mp hdel)
        simp [hdel, hu]
      · simp [hdel, AList.lookup_eq_none.mpr hdel, index]

/-- C16: the scenario with three nested transactions: after the innermost
`Commit` the keys read `val5` and empty, after the `Rollback` of the middle
transaction they read `val2` and `val3`, and after the last `Commit` there is no
transaction and the storage holds `val2` and `val3`. -/
theorem three_level_scenario :
    Get (reach [.set "key1" "val1", .startTransaction, .set "key1" "val2", .set "key3" "val3",
        .startTransaction, .delete "key1", .set "key3" "val4",
        .startTransaction, .set "key1" "val5", .delete "key3", .commit]) "key1" = "val5" ∧
      Get (reach [.set "key1" "val1", .startTransaction, .set "key1" "val2", .set "key3" "val3",
        .startTransaction, .delete "key1", .set "key3" "val4",
        .startTransaction, .set "key1" "val5", .delete "key3", .commit]) "key3" = "" ∧
      Get (reach [.set "key1" "val1", .startTransaction, .set "key1" "val2", .set "key3" "val3",
        .startTransaction, .delete "key1", .set "key3" "val4",
        .startTransaction, .set "key1" "val5", .delete "key3", .commit,
        .rollback]) "key1" = "val2" ∧
      Get (reach [.set "key1" "val1", .startTransaction, .set "key1" "val2", .set "key3" "val3",
        .startTransaction, .delete "key1", .set "key3" "val4",
        .startTransaction, .set "key1" "val5", .delete "key3", .commit,
        .rollback]) "key3" = "val3" ∧
      (reach [.set "key1" "val1", .startTransaction, .set "key1" "val2", .set "key3" "val3",
        .startTransaction, .delete "key1", .set "key3" "val4",
        .startTransaction, .set "key1" "val5", .delete "key3", .commit,
        .rollback, .commit]).onGoingTransaction = [] ∧
      (reach [.set "key1" "val1", .startTransaction, .set "key1" "val2", .set "key3" "val3",
        .startTransaction, .delete "key1", .set "key3" "val4",
        .startTransaction, .set "key1" "val5", .delete "key3", .commit,
        .rollback, .commit]).storage.lookup "key1" = some "val2" ∧
      (reach [.set "key1" "val1", .startTransaction, .set "key1" "val2", .set "key3" "val3",
        .startTransaction, .delete "key1", .set "key3" "val4",
        .startTransaction, .set "key1" "val5", .delete "key3", .commit,
        .rollback, .commit]).storage.lookup "key3" = some "val3" := by
  refine ⟨?_, ?_, ?_, ?_, ?_, ?_, ?_⟩ <;> decide

/-- C19: in a reachable state whose chain ends in a parent `P` and its nested node
`C`, every key of `P.toSet` or `P.toDelete` is a key of `C.toSet` or
`C.toDelete`, and after `Commit` the node in the place of `P` has the entries of
`C.toSet` in its `toSet` and the keys of `C.toDelete` in its `toDelete`. -/
theorem commit_replaces_parent_overlay (ops : List Op) (init : List transaction)
    (P C : transaction) (h : (reach ops).onGoingTransaction = init ++ [P, C]) :
    (∀ k, k ∈ P.toSet ∨ k ∈ P.toDelete → k ∈ C.toSet ∨ k ∈ C.toDelete) ∧
      ∃ P1, (Commit (reach ops)).onGoingTransaction = init ++ [P1] ∧
        (∀ k, P1.toSet.lookup k = C.toSet.lookup k) ∧
        (∀ k, k ∈ P1.toDelete ↔ k ∈ C.toDelete) ∧
        P1.toSet.entries.Perm C.toSet.entries ∧
        P1.toDelete.entries.Perm C.toDelete.entries := by
  have hexcl : Exclusive C := Exclusive_reach ops C (by rw [h]; simp)
  have hnest : Nested (init ++ [P, C]) := h ▸ Nested_reach ops
  have hsub : ∀ k, touches P k → touches C k := ((Nested_concat_pair init P C).mp hnest).2
  generalize reach ops = s at h
  obtain ⟨st, chain⟩ := s
  simp only at h
  subst h
  have hset : ∀ k, (transferSets (transferDeletes P C.toDelete) C.toSet).toSet.lookup k =
      C.toSet.lookup k := by
    intro k
    rw [lookup_merged_toSet]
    cases hc : C.toSet.lookup k with
    | some v => rfl
    | none =>
      have hns : k ∉ C.toSet := AList.lookup_eq_none.mp hc
      by_cases hd : k ∈ C.toDelete
      · simp [hd]
      · have hp : k ∉ P.toSet := fun hx => (hsub k (Or.inl hx)).elim hns hd
        simp [hd, AList.lookup_eq_none.mpr hp]
  have hdel : ∀ k, k ∈ (transferSets (transferDeletes P C.toDelete) C.toSet).toDelete ↔
      k ∈ C.toDelete := by
    intro k
    rw [mem_merged_toDelete]
    constructor
    · rintro ⟨hns, hd | hp⟩
      · exact hd
      · exact (hsub k (Or.inr hp)).elim (fun hx => absurd hx hns) id
    · exact fun hd => ⟨fun hx => hexcl k ⟨hx, hd⟩, Or.inl hd⟩
  refine ⟨hsub, transferSets (transferDeletes P C.toDelete) C.toSet, ?_, hset, hdel,
    entries_perm_of_lookup _ _ hset, entries_perm_of_lookup _ _ ?_⟩
  · rw [Commit_concat]
  · intro k
    have h1 := hdel k
    rw [mem_iff_lookup_isSome, mem_iff_lookup_isSome] at h1
    cases ha : (transferSets (transferDeletes P C.toDelete) C.toSet).toDelete.lookup k <;>
      cases hb : C.toDelete.lookup k <;> simp [ha, hb] at h1 ⊢

/-- C19 at a nested node that deleted the key its parent set and set another. -/
theorem commit_replaces_parent_overlay_witness :
    (reach
        [.startTransaction, .set "a" "1", .startTransaction, .delete "a", .set "b" "2"]).onGoingTransaction =
        [] ++ [(⟨AList.insert "a" "1" ∅, ∅⟩ : transaction),
          (⟨AList.insert "b" "2" ∅, AList.insert "a" () ∅⟩ : transaction)] ∧
    ((∀ k, k ∈ (⟨AList.insert "a" "1" ∅, ∅⟩ : transaction).toSet ∨
        k ∈ (⟨AList.insert "a" "1" ∅, ∅⟩ : transaction).toDelete →
        k ∈ (⟨AList.insert "b" "2" ∅, AList.insert "a" () ∅⟩ : transaction).toSet ∨
        k ∈ (⟨AList.insert "b" "2" ∅, AList.insert "a" () ∅⟩ : transaction).toDelete) ∧
      ∃ P1, (Commit (reach
        [.startTransaction, .set "a" "1", .startTransaction, .delete "a", .set "b" "2"])).onGoingTransaction = [] ++ [P1] ∧
        (∀ k, P1.toSet.lookup k =
          (⟨AList.insert "b" "2" ∅, AList.insert "a" () ∅⟩ : transaction).toSet.lookup k) ∧
        (∀ k, k ∈ P1.toDelete ↔
          k ∈ (⟨AList.insert "b" "2" ∅, AList.insert "a" () ∅⟩ : transaction).toDelete) ∧
        P1.toSet.entries.Perm
          (⟨AList.insert "b" "2" ∅, AList.insert "a" () ∅⟩ : transaction).toSet.entries ∧
        P1.toDelete.entries.Perm
          (⟨AList.insert "b" "2" ∅, AList.insert "a" () ∅⟩ : transaction).toDelete.entries) :=
  ⟨rfl,
    commit_replaces_parent_overlay
      [.startTransaction, .set "a" "1", .startTransaction, .delete "a", .set "b" "2"] []
      (⟨AList.insert "a" "1" ∅, ∅⟩ : transaction)
      (⟨AList.insert "b" "2" ∅, AList.insert "a" () ∅⟩ : transaction) rfl⟩

/-! ## The database as a stack of views -/

theorem views_nil (st : storage) : views ⟨st, []⟩ = [fun key => index st key] := rfl

theorem views_concat (st : storage) (init : List transaction) (tr : transaction) :
    views ⟨st, init ++ [tr]⟩ =
      (fun key => (overlayView st tr key).getD "") :: views ⟨st, init⟩ := by
  simp [views]

theorem views_ne_nil (db : InMemory) : views db ≠ [] := by
  simp [views]

theorem index_insert (st : storage) (k v : String) :
    (fun key => index (st.insert k v) key) = Function.update (fun key => index st key) k v := by
  funext key
  by_cases hk : key = k
  · subst hk
    simp [index]
  · simp [index, hk, Function.update]

theorem index_erase (st : storage) (k : String) :
    (fun key => index (st.erase k) key) = Function.update (fun key => index st key) k "" := by
  funext key
  by_cases hk : key = k
  · subst hk
    simp [index]
  · simp [index, hk, Function.update]

theorem overlayView_set (st : storage) (tr : transaction) (k v : String) :
    (fun key => (overlayView st ⟨tr.toSet.insert k v, tr.toDelete.erase k⟩ key).getD "") =
      Function.update (fun key => (overlayView st tr key).getD "") k v := by
  funext key
  by_cases hk : key = k
  · subst hk
    simp [overlayView]
  · simp [overlayView, hk, Function.update]

theorem overlayView_delete (st : storage) (tr : transaction) (k : String) :
    (fun key => (overlayView st ⟨tr.toSet.erase k, tr.toDelete.insert k ()⟩ key).getD "") =
      Function.update (fun key => (overlayView st tr key).getD "") k "" := by
  funext key
  by_cases hk : key = k
  · subst hk
    simp [overlayView]
  · simp [overlayView, hk, Function.update]

theorem overlayView_copy (st : storage) (tr : transaction) (key : String) :
    overlayView st ⟨copyToSetMap tr.toSet, copyToDeleteMap tr.toDelete⟩ key =
      overlayView st tr key := by
  simp only [overlayView, lookup_copyToSetMap, mem_copyToDeleteMap]

theorem overlayView_empty (st : storage) (key : String) :
    (overlayView st ⟨∅, ∅⟩ key).getD "" = index st key := by
  simp [overlayView, index]

theorem visible_eq_overlayView (st : storage) (init : List transaction) (tr : transaction)
    (key : String) : visible ⟨st, init ++ [tr]⟩ key = overlayView st tr key :=
  visible_concat st init tr key

theorem stackStep_get (l : List (String → String)) (k : String) :
    stackStep l (Op.get k) = l := rfl

/-- Each call acts on the views of the database as it acts on a stack of views. -/
theorem views_step (db : InMemory) (op : Op) (h : Nested db.onGoingTransaction) :
    views (step db op) = stackStep (views db) op := by
  obtain ⟨st, chain⟩ := db
  rcases chain_snoc chain with rfl | ⟨init, tr, rfl⟩
  · cases op with
    | get k => rfl
    | set k v => exact congrArg (fun f => [f]) (index_insert st k v)
    | delete k => exact congrArg (fun f => [f]) (index_erase st k)
    | startTransaction =>
      show [fun key => (overlayView st ⟨∅, ∅⟩ key).getD "", fun key => index st key] = _
      simp only [overlayView_empty]
      rfl
    | commit => rfl
    | rollback => rfl
  · cases op with
    | get k =>
      show views ⟨st, init ++ [tr]⟩ = _
      rw [stackStep_get]
    | set k v =>
      rw [step, Set_concat, views_concat, views_concat, overlayView_set]
      rfl
    | delete k =>
      rw [step, Delete_concat, views_concat, views_concat, overlayView_delete]
      rfl
    | startTransaction =>
      have hsplit : init ++ [tr, ⟨copyToSetMap tr.toSet, copyToDeleteMap tr.toDelete⟩] =
          (init ++ [tr]) ++ [⟨copyToSetMap tr.toSet, copyToDeleteMap tr.toDelete⟩] := by simp
      rw [step, StartTransaction_concat, hsplit, views_concat, views_concat]
      simp only [overlayView_copy]
      rfl
    | commit =>
      rcases chain_snoc init with rfl | ⟨init1, p, rfl⟩
      · show views (Commit ⟨st, [tr]⟩) = stackStep (views ⟨st, [tr]⟩) Op.commit
        rw [Commit_single]
        refine congrArg (fun f => [f]) ?_
        funext key
        simp only [index, overlayView, lookup_applySets, lookup_applyDeletes]
      · have hsplit : init1 ++ [p] ++ [tr] = init1 ++ [p, tr] := by simp
        have hvis : ∀ key,
            overlayView st (transferSets (transferDeletes p tr.toDelete) tr.toSet) key =
              overlayView st tr key := by
          intro key
          have h1 := visible_Commit ⟨st, init1 ++ [p] ++ [tr]⟩ h key
          rw [visible_eq_overlayView, hsplit, Commit_concat, visible_eq_overlayView] at h1
          exact h1
        rw [views_concat, views_concat, step, hsplit, Commit_concat, views_concat]
        simp only [hvis]
        rfl
    | rollback =>
      obtain ⟨g, fs, hW⟩ : ∃ g fs, views ⟨st, init⟩ = g :: fs := by
        cases hl : views ⟨st, init⟩ with
        | nil => exact absurd hl (views_ne_nil _)
        | cons g fs => exact ⟨g, fs, rfl⟩
      rw [step, Rollback_concat, views_concat, hW]
      rfl

theorem returned_eq_stack (db : InMemory) (op : Op) :
    returned db op = stackReturned (views db) op := by
  obtain ⟨st, chain⟩ := db
  rcases chain_snoc chain with rfl | ⟨init, tr, rfl⟩
  · cases op <;> rfl
  · rw [views_concat]
    cases op with
    | get k =>
      show [Get _ k] = [_]
      rw [Get_eq_visible, visible_eq_overlayView]
    | set k v => rfl
    | delete k => rfl
    | startTransaction => rfl
    | commit => rfl
    | rollback => rfl

/-- The strings returned by a run are those returned on the stack of its views. -/
theorem gets_eq_stack (ops : List Op) (db : InMemory) (h : Nested db.onGoingTransaction) :
    gets db ops = stackGets (views db) ops := by
  induction ops generalizing db with
  | nil => rfl
  | cons op ops ih =>
    rw [gets, stackGets, returned_eq_stack, ih (step db op) (Nested_step db op h),
      views_step db op h]

/-! ## The reference model as a stack of views -/

theorem snapshot_levels_apply (r : SnapshotStack) (op : Op) :
    (r.apply op).levels = stackStep r.levels op := by
  obtain ⟨top, below⟩ := r
  cases op with
  | get k => rfl
  | set k v =>
    show (fun key => index (top.insert k v) key) :: _ = Function.update _ k v :: _
    rw [index_insert]
    rfl
  | delete k =>
    show (fun key => index (top.erase k) key) :: _ = Function.update _ k "" :: _
    rw [index_erase]
    rfl
  | startTransaction => rfl
  | commit =>
    cases below with
    | nil => rfl
    | cons m rest => rfl
  | rollback =>
    cases below with
    | nil => rfl
    | cons m rest => rfl

theorem snapshot_answers_eq_stack (r : SnapshotStack) (op : Op) :
    r.answers op = stackReturned r.levels op := by
  cases op <;> rfl

theorem snapshot_trace_eq_stack (ops : List Op) (r : SnapshotStack) :
    r.trace ops = stackGets r.levels ops := by
  induction ops generalizing r with
  | nil => rfl
  | cons op ops ih =>
    rw [SnapshotStack.trace, stackGets, snapshot_answers_eq_stack, ih (r.apply op),
      snapshot_levels_apply]

/-- C15: in every reachable state and for every key, whatever calls follow, the
`Get` calls among them return the same strings after `Set(k, "")` as after
`Delete(k)`. -/
theorem empty_value_like_missing (ops later : List Op) (k : String) :
    gets (Set (reach ops) k "") later = gets (Delete (reach ops) k) later := by
  have hset : Nested (Set (reach ops) k "").onGoingTransaction :=
    Nested_step (reach ops) (Op.set k "") (Nested_reach ops)
  have hdel : Nested (Delete (reach ops) k).onGoingTransaction :=
    Nested_step (reach ops) (Op.delete k) (Nested_reach ops)
  have h1 : views (Set (reach ops) k "") = stackStep (views (reach ops)) (Op.set k "") :=
    views_step (reach ops) (Op.set k "") (Nested_reach ops)
  have h2 : views (Delete (reach ops) k) = stackStep (views (reach ops)) (Op.delete k) :=
    views_step (reach ops) (Op.delete k) (Nested_reach ops)
  have h3 : stackStep (views (reach ops)) (Op.set k "") =
      stackStep (views (reach ops)) (Op.delete k) := rfl
  rw [gets_eq_stack later _ hset, gets_eq_stack later _ hdel, h1, h2, h3]

/-- C18: for every sequence of calls on a fresh database the `Get` calls return
the same strings as in the reference model, a stack of plain maps on which
`StartTransaction` pushes a copy of the top, `Rollback` pops and `Commit` puts
the top in the place of the map below it. -/
theorem refines_snapshot_stack (ops : List Op) :
    gets InMemoryDatabase ops = SnapshotStack.fresh.trace ops := by
  rw [gets_eq_stack ops InMemoryDatabase List.chain'_nil, snapshot_trace_eq_stack]
  rfl

/-! ## The order of the `range` loops -/

theorem CommitInOrder_entries (db : InMemory) (tr : transaction)
    (h : db.onGoingTransaction.getLast? = some tr) :
    CommitInOrder tr.toDelete.entries tr.toSet.entries db = Commit db := by
  obtain ⟨st, chain⟩ := db
  rcases chain_snoc chain with rfl | ⟨init, x, rfl⟩
  · rfl
  · have hx : x = tr := by simpa using h
    subst hx
    simp only [CommitInOrder, Commit, getLast_concat]
    rfl

theorem CommitInOrder_single (dels : List (Σ _ : String, Unit))
    (sets : List (Σ _ : String, String)) (st : storage) (tr : transaction) :
    CommitInOrder dels sets ⟨st, [tr]⟩ =
      ⟨sets.foldl (fun s e => s.insert e.1 e.2) (dels.foldl (fun s e => s.erase e.1) st), []⟩ :=
  rfl

theorem CommitInOrder_concat (dels : List (Σ _ : String, Unit))
    (sets : List (Σ _ : String, String)) (st : storage) (init : List transaction)
    (p tr : transaction) :
    CommitInOrder dels sets ⟨st, init ++ [p, tr]⟩ =
      ⟨st, init ++ [sets.foldl
        (fun p e => { toSet := p.toSet.insert e.1 e.2, toDelete := p.toDelete.erase e.1 })
        (dels.foldl
          (fun p e => { toSet := p.toSet.erase e.1, toDelete := p.toDelete.insert e.1 () })
          p)]⟩ := by
  have h : init ++ [p, tr] = (init ++ [p]) ++ [tr] := by simp
  have hl : getLast ⟨st, init ++ [p, tr]⟩ = some tr := by rw [h, getLast_concat]
  simp only [CommitInOrder, hl, parentOfLast_concat]
  rw [h, List.dropLast_concat, storeLast_concat]

theorem lookup_perm_erase {γ δ : Type} (l : List (Σ _ : String, γ))
    (m : AList (fun _ : String => γ)) (h : l.Perm m.entries)
    (init : AList (fun _ : String => δ)) (k : String) :
    (l.foldl (fun s e => s.erase e.1) init).lookup k =
      if k ∈ m then none else init.lookup k := by
  rw [lookup_foldl_erase]
  have hk : k ∈ l.keys ↔ k ∈ m := (h.map Sigma.fst).mem_iff
  by_cases hm : k ∈ m
  · rw [if_pos hm, if_pos (hk.mpr hm)]
  · rw [if_neg hm, if_neg (fun hx => hm (hk.mp hx))]

theorem lookup_perm_insert {γ : Type} (l : List (Σ _ : String, γ))
    (m : AList (fun _ : String => γ)) (h : l.Perm m.entries)
    (init : AList (fun _ : String => γ)) (k : String) :
    (l.foldl (fun s e => s.insert e.1 e.2) init).lookup k =
      (m.lookup k).or (init.lookup k) := by
  have hnd : l.NodupKeys := (List.perm_nodupKeys h).mpr m.nodupKeys
  rw [lookup_foldl_insert l hnd, List.perm_dlookup k hnd m.nodupKeys h]
  rfl

theorem foldl_deletes_toSet (l : List (Σ _ : String, Unit)) (p : transaction) :
    (l.foldl (fun p e => { toSet := p.toSet.erase e.1, toDelete := p.toDelete.insert e.1 () })
      p).toSet = l.foldl (fun s e => s.erase e.1) p.toSet := by
  induction l generalizing p with
  | nil => rfl
  | cons e l ih => rw [List.foldl_cons, ih, List.foldl_cons]

theorem foldl_deletes_toDelete (l : List (Σ _ : String, Unit)) (p : transaction) :
    (l.foldl (fun p e => { toSet := p.toSet.erase e.1, toDelete := p.toDelete.insert e.1 () })
      p).toDelete = l.foldl (fun s e => s.insert e.1 e.2) p.toDelete := by
  induction l generalizing p with
  | nil => rfl
  | cons e l ih => rw [List.foldl_cons, ih, List.foldl_cons]

theorem foldl_sets_toSet (l : List (Σ _ : String, String)) (p : transaction) :
    (l.foldl (fun p e => { toSet := p.toSet.insert e.1 e.2, toDelete := p.toDelete.erase e.1 })
      p).toSet = l.foldl (fun s e => s.insert e.1 e.2) p.toSet := by
  induction l generalizing p with
  | nil => rfl
  | cons e l ih => rw [List.foldl_cons, ih, List.foldl_cons]

theorem foldl_sets_toDelete (l : List (Σ _ : String, String)) (p : transaction) :
    (l.foldl (fun p e => { toSet := p.toSet.insert e.1 e.2, toDelete := p.toDelete.erase e.1 })
      p).toDelete = l.foldl (fun s e => s.erase e.1) p.toDelete := by
  induction l generalizing p with
  | nil => rfl
  | cons e l ih => rw [List.foldl_cons, ih, List.foldl_cons]

theorem sameEntries_refl (a : transaction) : sameEntries a a :=
  ⟨List.Perm.refl _, List.Perm.refl _⟩

theorem forall₂_sameEntries_refl (l : List transaction) : List.Forall₂ sameEntries l l := by
  induction l with
  | nil => exact List.Forall₂.nil
  | cons a l ih => exact List.Forall₂.cons (sameEntries_refl a) ih

/-- Whatever the order of the two loops, `Commit` gives the entries that the loops
give in the order of the lists. -/
theorem CommitInOrder_sameContents (db : InMemory) (tr : transaction)
    (dels : List (Σ _ : String, Unit)) (sets : List (Σ _ : String, String))
    (hlast : db.onGoingTransaction.getLast? = some tr)
    (hd : dels.Perm tr.toDelete.entries) (hs : sets.Perm tr.toSet.entries) :
    sameContents (CommitInOrder dels sets db) (Commit db) := by
  obtain ⟨st, chain⟩ := db
  rcases chain_cases chain with rfl | ⟨x, rfl⟩ | ⟨init, p, x, rfl⟩
  · simp at hlast
  · have hx : x = tr := by simpa using hlast
    subst hx
    rw [CommitInOrder_single, Commit_single]
    refine ⟨entries_perm_of_lookup _ _ (fun k => ?_), List.Forall₂.nil⟩
    rw [lookup_perm_insert sets x.toSet hs, lookup_perm_erase dels x.toDelete hd,
      lookup_applySets, lookup_applyDeletes]
  · have hx : x = tr := by
      have h1 : init ++ [p, x] = (init ++ [p]) ++ [x] := by simp
      rw [h1] at hlast
      simpa using hlast
    subst hx
    rw [CommitInOrder_concat, Commit_concat]
    refine ⟨List.Perm.refl _, ?_⟩
    refine List.rel_append (forall₂_sameEntries_refl init) (List.Forall₂.cons ⟨?_, ?_⟩ List.Forall₂.nil)
    · refine entries_perm_of_lookup _ _ (fun k => ?_)
      rw [foldl_sets_toSet, lookup_perm_insert sets x.toSet hs, foldl_deletes_toSet,
        lookup_perm_erase dels x.toDelete hd, lookup_merged_toSet]
    · refine entries_perm_of_lookup _ _ (fun k => ?_)
      rw [foldl_sets_toDelete, lookup_perm_erase sets x.toSet hs, foldl_deletes_toDelete,
        lookup_perm_insert dels x.toDelete hd, lookup_merged_toDelete]

theorem forall₂_sameEntries_join {a b c : List transaction}
    (h1 : List.Forall₂ sameEntries a c) (h2 : List.Forall₂ sameEntries b c) :
    List.Forall₂ sameEntries a b := by
  induction h1 generalizing b with
  | nil =>
    cases h2
    exact List.Forall₂.nil
  | cons hxy _ ih =>
    cases h2 with
    | cons hzy h2 =>
      exact List.Forall₂.cons ⟨hxy.1.trans hzy.1.symm, hxy.2.trans hzy.2.symm⟩ (ih h2)

/-- C20: in a reachable state with an active transaction whose last node is `tr`,
`Commit` gives the same entries in the storage and in every node of the chain
for any two orders in which its loops enumerate the entries of `tr.toDelete`
and of `tr.toSet`; the order of the lists is one of them and gives `Commit`. -/
theorem commit_order_independent (ops : List Op) (tr : transaction)
    (dels dels1 : List (Σ _ : String, Unit)) (sets sets1 : List (Σ _ : String, String))
    (hlast : (reach ops).onGoingTransaction.getLast? = some tr)
    (hd : dels.Perm tr.toDelete.entries) (hs : sets.Perm tr.toSet.entries)
    (hd1 : dels1.Perm tr.toDelete.entries) (hs1 : sets1.Perm tr.toSet.entries) :
    sameContents (CommitInOrder dels sets (reach ops)) (CommitInOrder dels1 sets1 (reach ops)) ∧
      sameContents (CommitInOrder dels sets (reach ops)) (Commit (reach ops)) ∧
      CommitInOrder tr.toDelete.entries tr.toSet.entries (reach ops) = Commit (reach ops) := by
  have h1 := CommitInOrder_sameContents (reach ops) tr dels sets hlast hd hs
  have h2 := CommitInOrder_sameContents (reach ops) tr dels1 sets1 hlast hd1 hs1
  exact ⟨⟨h1.1.trans h2.1.symm, forall₂_sameEntries_join h1.2 h2.2⟩, h1,
    CommitInOrder_entries (reach ops) tr hlast⟩

/-- C20 at a single transaction that set two keys and deleted a third, with the
two keys written in either order. -/
theorem commit_order_independent_witness :
    (reach [.startTransaction, .set "a" "1", .set "b" "2", .delete "c"]).onGoingTransaction.getLast? =
        some (⟨AList.insert "b" "2" (AList.insert "a" "1" ∅), AList.insert "c" () ∅⟩ : transaction) ∧
      List.Perm ([⟨"c", ()⟩] : List (Σ _ : String, Unit))
        (⟨AList.insert "b" "2" (AList.insert "a" "1" ∅), AList.insert "c" () ∅⟩ : transaction).toDelete.entries ∧
      List.Perm ([⟨"a", "1"⟩, ⟨"b", "2"⟩] : List (Σ _ : String, String))
        (⟨AList.insert "b" "2" (AList.insert "a" "1" ∅), AList.insert "c" () ∅⟩ : transaction).toSet.entries ∧
      List.Perm ([⟨"c", ()⟩] : List (Σ _ : String, Unit))
        (⟨AList.insert "b" "2" (AList.insert "a" "1" ∅), AList.insert "c" () ∅⟩ : transaction).toDelete.entries ∧
      List.Perm ([⟨"b", "2"⟩, ⟨"a", "1"⟩] : List (Σ _ : String, String))
        (⟨AList.insert "b" "2" (AList.insert "a" "1" ∅), AList.insert "c" () ∅⟩ : transaction).toSet.entries ∧
      (sameContents
          (CommitInOrder [⟨"c", ()⟩] [⟨"a", "1"⟩, ⟨"b", "2"⟩]
            (reach [.startTransaction, .set "a" "1", .set "b" "2", .delete "c"]))
          (CommitInOrder [⟨"c", ()⟩] [⟨"b", "2"⟩, ⟨"a", "1"⟩]
            (reach [.startTransaction, .set "a" "1", .set "b" "2", .delete "c"])) ∧
        sameContents
          (CommitInOrder [⟨"c", ()⟩] [⟨"a", "1"⟩, ⟨"b", "2"⟩]
            (reach [.startTransaction, .set "a" "1", .set "b" "2", .delete "c"]))
          (Commit (reach [.startTransaction, .set "a" "1", .set "b" "2", .delete "c"])) ∧
        CommitInOrder
            (⟨AList.insert "b" "2" (AList.insert "a" "1" ∅), AList.insert "c" () ∅⟩ : transaction).toDelete.entries
            (⟨AList.insert "b" "2" (AList.insert "a" "1" ∅), AList.insert "c" () ∅⟩ : transaction).toSet.entries
            (reach [.startTransaction, .set "a" "1", .set "b" "2", .delete "c"]) =
          Commit (reach [.startTransaction, .set "a" "1", .set "b" "2", .delete "c"])) :=
  ⟨rfl, List.Perm.refl _, List.Perm.swap _ _ _, List.Perm.refl _, List.Perm.refl _,
    commit_order_independent [.startTransaction, .set "a" "1", .set "b" "2", .delete "c"]
      (⟨AList.insert "b" "2" (AList.insert "a" "1" ∅), AList.insert "c" () ∅⟩ : transaction)
      [⟨"c", ()⟩] [⟨"c", ()⟩] [⟨"a", "1"⟩, ⟨"b", "2"⟩] [⟨"b", "2"⟩, ⟨"a", "1"⟩]
      rfl (List.Perm.refl _) (List.Perm.swap _ _ _) (List.Perm.refl _) (List.Perm.refl _)⟩

/-! ## The heap holds the chain -/

theorem Seg_nil (heap : List Node) (par next : Option Nat) : Seg heap par [] next := trivial

theorem Seg_cons (heap : List Node) (par next : Option Nat) (c : Nat × transaction)
    (cells : List (Nat × transaction)) :
    Seg heap par (c :: cells) next ↔
      heap[c.1]? =
          some ⟨par, ((cells.head?).map Prod.fst).or next, some c.2.toSet, some c.2.toDelete⟩ ∧
        Seg heap (some c.1) cells next :=
  Iff.rfl

/-- A stretch that ends in the struct at `a`: the stretch before it is linked to
`a`, and the struct at `a` has the last struct before it as its parent. -/
theorem Seg_concat (heap : List Node) (par next : Option Nat)
    (cells : List (Nat × transaction)) (a : Nat) (t : transaction) :
    Seg heap par (cells ++ [(a, t)]) next ↔
      Seg heap par cells (some a) ∧
        heap[a]? =
          some ⟨((cells.getLast?).map Prod.fst).or par, next, some t.toSet, some t.toDelete⟩ := by
  induction cells generalizing par with
  | nil => simp [Seg]
  | cons c cells ih =>
    rw [List.cons_append, Seg_cons, Seg_cons, ih]
    have hhead : (((cells ++ [(a, t)]).head?).map Prod.fst).or next =
        ((cells.head?).map Prod.fst).or (some a) := by
      cases cells <;> simp
    have hlast : (((c :: cells).getLast?).map Prod.fst).or par =
        ((cells.getLast?).map Prod.fst).or (some c.1) := by
      cases cells with
      | nil => rfl
      | cons d cells =>
        rw [List.getLast?_cons_cons]
        cases hx : (d :: cells).getLast? with
        | none => exact absurd (List.getLast?_eq_none_iff.mp hx) (List.cons_ne_nil d cells)
        | some x => rfl
    rw [hhead, hlast, and_assoc]

/-- Every struct of the chain is inside the heap. -/
theorem Seg_lt (heap : List Node) (cells : List (Nat × transaction)) :
    ∀ (par next : Option Nat), Seg heap par cells next → ∀ c ∈ cells, c.1 < heap.length := by
  induction cells with
  | nil => exact fun _ _ _ c hc => absurd hc (List.not_mem_nil c)
  | cons c0 cells ih =>
    intro par next h c hc
    rw [Seg_cons] at h
    rcases List.mem_cons.mp hc with rfl | hc
    · by_contra hlt
      rw [List.getElem?_eq_none (Nat.le_of_not_lt hlt)] at h
      exact absurd h.1 (by simp)
    · exact ih _ _ h.2 c hc

/-- A write outside the chain leaves the chain as it is. -/
theorem Seg_set_other (heap : List Node) (a : Nat) (node : Node)
    (cells : List (Nat × transaction)) :
    ∀ (par next : Option Nat), (∀ c ∈ cells, c.1 ≠ a) → Seg heap par cells next →
      Seg (heap.set a node) par cells next := by
  induction cells with
  | nil => exact fun _ _ _ _ => trivial
  | cons c0 cells ih =>
    intro par next hne h
    rw [Seg_cons] at h ⊢
    refine ⟨?_, ih _ _ (fun c hc => hne c (List.mem_cons_of_mem _ hc)) h.2⟩
    rw [List.getElem?_set_ne (fun hx => hne c0 (List.mem_cons_self _ _) hx.symm)]
    exact h.1

/-- An allocation leaves the chain as it is. -/
theorem Seg_alloc (heap : List Node) (node : Node) (cells : List (Nat × transaction)) :
    ∀ (par next : Option Nat), Seg heap par cells next → Seg (heap ++ [node]) par cells next := by
  induction cells with
  | nil => exact fun _ _ _ => trivial
  | cons c0 cells ih =>
    intro par next h
    have hlt : c0.1 < heap.length := Seg_lt heap (c0 :: cells) par next h c0 (List.mem_cons_self _ _)
    rw [Seg_cons] at h ⊢
    refine ⟨?_, ih _ _ h.2⟩
    rw [List.getElem?_append_left hlt]
    exact h.1

/-- The loop of `getLast` reaches the last struct of the chain when it has a round
for every address from its start to the end of the heap. -/
theorem heapWalk_last (heap : List Node) (cells : List (Nat × transaction)) :
    ∀ (par : Option Nat) (c : Nat × transaction) (fuel : Nat),
      Seg heap par (c :: cells) none → ((c :: cells).map Prod.fst).Pairwise (· < ·) →
      heap.length ≤ fuel + c.1 →
      heapWalk heap fuel c.1 = .ok (((c :: cells).getLast?).map Prod.fst) := by
  induction cells with
  | nil =>
    intro par c fuel h _ hfuel
    have hlt : c.1 < heap.length := Seg_lt heap [c] par none h c (List.mem_cons_self _ _)
    rw [Seg_cons] at h
    obtain ⟨n, rfl⟩ : ∃ n, fuel = n + 1 := ⟨fuel - 1, by omega⟩
    simp [heapWalk, h.1]
  | cons c1 cells ih =>
    intro par c fuel h hsorted hfuel
    have hlt : c.1 < heap.length :=
      Seg_lt heap (c :: c1 :: cells) par none h c (List.mem_cons_self _ _)
    rw [Seg_cons] at h
    obtain ⟨n, rfl⟩ : ∃ n, fuel = n + 1 := ⟨fuel - 1, by omega⟩
    have hstep : c.1 < c1.1 := by
      simp only [List.map_cons, List.pairwise_cons] at hsorted
      exact hsorted.1 c1.1 (List.mem_cons_self _ _)
    have hrest : ((c1 :: cells).map Prod.fst).Pairwise (· < ·) := by
      simp only [List.map_cons, List.pairwise_cons] at hsorted ⊢
      exact hsorted.2
    have hnext := ih (some c.1) c1 n h.2 hrest (by omega)
    simp only [heapWalk, h.1, List.head?_cons, Option.map_some', Option.or_some]
    rw [hnext, List.getLast?_cons_cons]

theorem Represents_nil (m : Memory) (st : storage) (h : Represents m ⟨st, []⟩) :
    m.storage = some st ∧ m.onGoingTransaction = none := by
  obtain ⟨hst, cells, hmap, _, hhead, _⟩ := h
  have hc : cells = [] := List.map_eq_nil_iff.mp hmap
  subst hc
  exact ⟨hst, hhead⟩

theorem Represents_concat (m : Memory) (st : storage) (init : List transaction)
    (tr : transaction) (h : Represents m ⟨st, init ++ [tr]⟩) :
    m.storage = some st ∧ ∃ (cs : List (Nat × transaction)) (a : Nat),
      cs.map Prod.snd = init ∧
      ((cs ++ [(a, tr)]).map Prod.fst).Pairwise (· < ·) ∧
      m.onGoingTransaction = ((cs ++ [(a, tr)]).head?).map Prod.fst ∧
      Seg m.heap none (cs ++ [(a, tr)]) none := by
  obtain ⟨hst, cells, hmap, hsorted, hhead, hseg⟩ := h
  obtain ⟨cs, l2, rfl, hcs, hl2⟩ := List.map_eq_append_iff.mp hmap
  obtain ⟨c, rfl, hc⟩ : ∃ c, l2 = [c] ∧ c.2 = tr := by
    cases l2 with
    | nil => simp at hl2
    | cons c l2 =>
      simp only [List.map_cons, List.cons.injEq, List.map_eq_nil_iff] at hl2
      obtain ⟨h1, rfl⟩ := hl2
      exact ⟨c, rfl, h1⟩
  obtain ⟨a, t⟩ := c
  simp only at hc
  subst hc
  exact ⟨hst, cs, a, hcs, hsorted, hhead, hseg⟩

/-- With a chain in the heap `getLast` returns the address of its last struct. -/
theorem heapGetLast_concat (m : Memory) (cs : List (Nat × transaction)) (a : Nat)
    (tr : transaction)
    (hsorted : ((cs ++ [(a, tr)]).map Prod.fst).Pairwise (· < ·))
    (hhead : m.onGoingTransaction = ((cs ++ [(a, tr)]).head?).map Prod.fst)
    (hseg : Seg m.heap none (cs ++ [(a, tr)]) none) :
    heapGetLast m = .ok (some a) := by
  obtain ⟨c, rest, hcells⟩ : ∃ c rest, cs ++ [(a, tr)] = c :: rest := by
    cases cs with
    | nil => exact ⟨_, _, rfl⟩
    | cons c cs => exact ⟨c, cs ++ [(a, tr)], rfl⟩
  have hlast : ((c :: rest).getLast?).map Prod.fst = some a := by
    rw [← hcells, List.getLast?_concat]
    rfl
  rw [hcells] at hsorted hhead hseg
  have hwalk := heapWalk_last m.heap rest none c m.heap.length hseg hsorted (Nat.le_add_right _ _)
  rw [hlast] at hwalk
  simp only [List.head?_cons, Option.map_some'] at hhead
  rw [heapGetLast, hhead]
  exact hwalk

theorem deref_of_getElem (heap : List Node) (a : Nat) (node : Node)
    (h : heap[a]? = some node) : deref heap (some a) = .ok node := by
  simp [deref, h]

/-- The last struct of a chain in the heap. -/
theorem Seg_last (heap : List Node) (cs : List (Nat × transaction)) (a : Nat)
    (tr : transaction) (hseg : Seg heap none (cs ++ [(a, tr)]) none) :
    heap[a]? = some ⟨(cs.getLast?).map Prod.fst, none, some tr.toSet, some tr.toDelete⟩ := by
  have h := ((Seg_concat heap none none cs a tr).mp hseg).2
  rw [Option.or_none] at h
  exact h

theorem rep_Get (m : Memory) (db : InMemory) (h : Represents m db) (k : String) :
    heapGet m k = .ok (Get db k) := by
  obtain ⟨st, chain⟩ := db
  rcases chain_snoc chain with rfl | ⟨init, tr, rfl⟩
  · obtain ⟨hst, hon⟩ := Represents_nil m st h
    rw [heapGet, hon, hst]
    rfl
  · obtain ⟨hst, cs, a, _, hsorted, hhead, hseg⟩ := Represents_concat m st init tr h
    have hlast := heapGetLast_concat m cs a tr hsorted hhead hseg
    have hnode := deref_of_getElem _ _ _ (Seg_last m.heap cs a tr hseg)
    have hsome : ∃ head, m.onGoingTransaction = some head := by
      rw [hhead]
      cases cs <;> exact ⟨_, rfl⟩
    obtain ⟨head, hon⟩ := hsome
    rw [heapGet, hon]
    simp only [hlast, hnode, bind, Except.bind, hst, Get_concat, goLookup, goIndex, pure,
      Except.pure]
    cases tr.toSet.lookup k with
    | some v => rfl
    | none =>
      cases tr.toDelete.lookup k with
      | some u => rfl
      | none => rfl

/-- In a chain at rising addresses the last address is none of the earlier ones. -/
theorem last_ne_of_sorted (cs : List (Nat × transaction)) (a : Nat) (tr : transaction)
    (hsorted : ((cs ++ [(a, tr)]).map Prod.fst).Pairwise (· < ·)) :
    ∀ c ∈ cs, c.1 ≠ a := by
  intro c hc
  rw [List.map_append, List.pairwise_append] at hsorted
  have hlt : c.1 < a := hsorted.2.2 c.1 (List.mem_map_of_mem Prod.fst hc) a (by simp)
  omega

theorem sorted_init (cs : List (Nat × transaction)) (a : Nat) (tr : transaction)
    (hsorted : ((cs ++ [(a, tr)]).map Prod.fst).Pairwise (· < ·)) :
    (cs.map Prod.fst).Pairwise (· < ·) := by
  rw [List.map_append, List.pairwise_append] at hsorted
  exact hsorted.1

/-- Writing new maps and a new `nested` into the last struct of the chain. -/
theorem Seg_store_last (heap : List Node) (cs : List (Nat × transaction)) (a : Nat)
    (tr tr1 : transaction) (next0 next : Option Nat)
    (hsorted : ((cs ++ [(a, tr)]).map Prod.fst).Pairwise (· < ·))
    (hseg : Seg heap none (cs ++ [(a, tr)]) next0) :
    Seg (heap.set a ⟨(cs.getLast?).map Prod.fst, next, some tr1.toSet, some tr1.toDelete⟩) none
      (cs ++ [(a, tr1)]) next := by
  have hlt : a < heap.length := Seg_lt heap _ none next0 hseg (a, tr) (by simp)
  rw [Seg_concat] at hseg ⊢
  refine ⟨Seg_set_other heap a _ cs none (some a) (last_ne_of_sorted cs a tr hsorted) hseg.1, ?_⟩
  rw [List.getElem?_set_self hlt, Option.or_none]

theorem rep_Set (m : Memory) (db : InMemory) (h : Represents m db) (k v : String) :
    ∃ m1, heapSet m k v = .ok m1 ∧ Represents m1 (Set db k v) := by
  obtain ⟨st, chain⟩ := db
  rcases chain_snoc chain with rfl | ⟨init, tr, rfl⟩
  · obtain ⟨hst, hon⟩ := Represents_nil m st h
    refine ⟨⟨some (st.insert k v), none, m.heap⟩, ?_, rfl, [], rfl, List.Pairwise.nil, rfl,
      trivial⟩
    rw [heapSet, hon, hst]
    rfl
  · obtain ⟨hst, cs, a, hcs, hsorted, hhead, hseg⟩ := Represents_concat m st init tr h
    have hlast := heapGetLast_concat m cs a tr hsorted hhead hseg
    have hnode := deref_of_getElem _ _ _ (Seg_last m.heap cs a tr hseg)
    obtain ⟨head, hon⟩ : ∃ head, m.onGoingTransaction = some head := by
      rw [hhead]
      cases cs <;> exact ⟨_, rfl⟩
    refine ⟨⟨m.storage, some head, m.heap.set a
      ⟨(cs.getLast?).map Prod.fst, none, some (tr.toSet.insert k v),
        some (tr.toDelete.erase k)⟩⟩, ?_, ?_⟩
    · rw [heapSet, hon]
      simp only [hlast, hnode, bind, Except.bind, goAssign, goDelete, pure, Except.pure, store]
    · rw [Set_concat]
      refine ⟨hst, cs ++ [(a, ⟨tr.toSet.insert k v, tr.toDelete.erase k⟩)], ?_, ?_, ?_, ?_⟩
      · simp [hcs]
      · simpa using hsorted
      · show some head = _
        rw [← hon, hhead]
        cases cs <;> rfl
      · exact Seg_store_last m.heap cs a tr ⟨tr.toSet.insert k v, tr.toDelete.erase k⟩ none none
          hsorted hseg

theorem rep_Delete (m : Memory) (db : InMemory) (h : Represents m db) (k : String) :
    ∃ m1, heapDelete m k = .ok m1 ∧ Represents m1 (Delete db k) := by
  obtain ⟨st, chain⟩ := db
  rcases chain_snoc chain with rfl | ⟨init, tr, rfl⟩
  · obtain ⟨hst, hon⟩ := Represents_nil m st h
    refine ⟨⟨some (st.erase k), none, m.heap⟩, ?_, rfl, [], rfl, List.Pairwise.nil, rfl,
      trivial⟩
    rw [heapDelete, hon, hst]
    rfl
  · obtain ⟨hst, cs, a, hcs, hsorted, hhead, hseg⟩ := Represents_concat m st init tr h
    have hlast := heapGetLast_concat m cs a tr hsorted hhead hseg
    have hnode := deref_of_getElem _ _ _ (Seg_last m.heap cs a tr hseg)
    obtain ⟨head, hon⟩ : ∃ head, m.onGoingTransaction = some head := by
      rw [hhead]
      cases cs <;> exact ⟨_, rfl⟩
    refine ⟨⟨m.storage, some head, m.heap.set a
      ⟨(cs.getLast?).map Prod.fst, none, some (tr.toSet.erase k),
        some (tr.toDelete.insert k ())⟩⟩, ?_, ?_⟩
    · rw [heapDelete, hon]
      simp only [hlast, hnode, bind, Except.bind, goAssign, goDelete, pure, Except.pure, store]
    · rw [Delete_concat]
      refine ⟨hst, cs ++ [(a, ⟨tr.toSet.erase k, tr.toDelete.insert k ()⟩)], ?_, ?_, ?_, ?_⟩
      · simp [hcs]
      · simpa using hsorted
      · show some head = _
        rw [← hon, hhead]
        cases cs <;> rfl
      · exact Seg_store_last m.heap cs a tr ⟨tr.toSet.erase k, tr.toDelete.insert k ()⟩ none none
          hsorted hseg

theorem rep_StartTransaction (m : Memory) (db : InMemory) (h : Represents m db) :
    ∃ m1, heapStartTransaction m = .ok m1 ∧ Represents m1 (StartTransaction db) := by
  obtain ⟨st, chain⟩ := db
  rcases chain_snoc chain with rfl | ⟨init, tr, rfl⟩
  · obtain ⟨hst, hon⟩ := Represents_nil m st h
    refine ⟨⟨m.storage, some m.heap.length, m.heap ++ [⟨none, none, some ∅, some ∅⟩]⟩, ?_,
      hst, [(m.heap.length, ⟨∅, ∅⟩)], rfl, by simp, rfl, ?_, trivial⟩
    · simp only [heapStartTransaction, heapGetLast, hon, bind, Except.bind, pure, Except.pure]
    · exact List.getElem?_concat_length m.heap _
  · obtain ⟨hst, cs, a, hcs, hsorted, hhead, hseg⟩ := Represents_concat m st init tr h
    have hlast := heapGetLast_concat m cs a tr hsorted hhead hseg
    have hnode := deref_of_getElem _ _ _ (Seg_last m.heap cs a tr hseg)
    refine ⟨⟨m.storage, m.onGoingTransaction,
      m.heap.set a ⟨(cs.getLast?).map Prod.fst, some m.heap.length, some tr.toSet,
          some tr.toDelete⟩ ++
        [⟨some a, none, some (copyToSetMap tr.toSet), some (copyToDeleteMap tr.toDelete)⟩]⟩,
      ?_, ?_⟩
    · simp only [heapStartTransaction, hlast, hnode, bind, Except.bind, pure, Except.pure]
      rfl
    · have hsplit : init ++ [tr, ⟨copyToSetMap tr.toSet, copyToDeleteMap tr.toDelete⟩] =
          (init ++ [tr]) ++ [⟨copyToSetMap tr.toSet, copyToDeleteMap tr.toDelete⟩] := by simp
      rw [StartTransaction_concat, hsplit]
      refine ⟨hst, (cs ++ [(a, tr)]) ++
        [(m.heap.length, ⟨copyToSetMap tr.toSet, copyToDeleteMap tr.toDelete⟩)], ?_, ?_, ?_, ?_⟩
      · simp [hcs]
      · rw [List.map_append, List.pairwise_append]
        refine ⟨hsorted, by simp, ?_⟩
        intro x hx y hy
        obtain ⟨c, hc, rfl⟩ := List.mem_map.mp hx
        have hlt := Seg_lt m.heap _ none none hseg c hc
        simp only [List.map_cons, List.map_nil, List.mem_singleton] at hy
        omega
      · show m.onGoingTransaction = _
        rw [hhead]
        cases cs <;> rfl
      · rw [Seg_concat]
        refine ⟨Seg_alloc _ _ _ none _
          (Seg_store_last m.heap cs a tr tr none (some m.heap.length) hsorted hseg), ?_⟩
        rw [List.getLast?_concat]
        show (m.heap.set a _ ++ [_])[m.heap.length]? = some _
        rw [List.getElem?_append_right (by rw [List.length_set])]
        simp

/-! ## The loops of `Commit` on maps that are not nil -/

theorem foldl_goDelete_some (l : List (Σ _ : String, Unit)) (st : storage) :
    l.foldl (fun s e => goDelete s e.1) (some st) =
      some (l.foldl (fun s e => s.erase e.1) st) := by
  induction l generalizing st with
  | nil => rfl
  | cons e l ih => exact ih (st.erase e.1)

theorem foldlM_goAssign_some (l : List (Σ _ : String, String)) (st : storage) :
    l.foldlM (fun s e => (goAssign s e.1 e.2).map some) (some st) =
      .ok (some (l.foldl (fun s e => s.insert e.1 e.2) st)) := by
  induction l generalizing st with
  | nil => rfl
  | cons e l ih =>
    rw [List.foldlM_cons, List.foldl_cons]
    exact ih (st.insert e.1 e.2)

theorem foldlM_goTransferDeletes (l : List (Σ _ : String, Unit)) (par next : Option Nat)
    (p : transaction) :
    l.foldlM
        (fun p e => (goAssign p.toDelete e.1 ()).map
          (fun d => (⟨p.parent, p.nested, goDelete p.toSet e.1, some d⟩ : Node)))
        (nodeOf par next p) =
      .ok (nodeOf par next
        (l.foldl (fun p e => { toSet := p.toSet.erase e.1, toDelete := p.toDelete.insert e.1 () })
          p)) := by
  induction l generalizing p with
  | nil => rfl
  | cons e l ih =>
    rw [List.foldlM_cons, List.foldl_cons]
    exact ih ⟨p.toSet.erase e.1, p.toDelete.insert e.1 ()⟩

theorem foldlM_goTransferSets (l : List (Σ _ : String, String)) (par next : Option Nat)
    (p : transaction) :
    l.foldlM
        (fun p e => (goAssign p.toSet e.1 e.2).map
          (fun s => (⟨p.parent, p.nested, some s, goDelete p.toDelete e.1⟩ : Node)))
        (nodeOf par next p) =
      .ok (nodeOf par next
        (l.foldl (fun p e => { toSet := p.toSet.insert e.1 e.2, toDelete := p.toDelete.erase e.1 })
          p)) := by
  induction l generalizing p with
  | nil => rfl
  | cons e l ih =>
    rw [List.foldlM_cons, List.foldl_cons]
    exact ih ⟨p.toSet.insert e.1 e.2, p.toDelete.erase e.1⟩

theorem goApplyDeletes_some (st : storage) (toDelete : keySet) :
    goApplyDeletes (some st) (some toDelete) = some (applyDeletes st toDelete) :=
  foldl_goDelete_some toDelete.entries st

theorem goApplySets_some (st toSet : storage) :
    goApplySets (some st) (some toSet) = .ok (some (applySets st toSet)) :=
  foldlM_goAssign_some toSet.entries st

theorem goTransferDeletes_nodeOf (par next : Option Nat) (p : transaction) (toDelete : keySet) :
    goTransferDeletes (nodeOf par next p) (some toDelete) =
      .ok (nodeOf par next (transferDeletes p toDelete)) :=
  foldlM_goTransferDeletes toDelete.entries par next p

theorem goTransferSets_nodeOf (par next : Option Nat) (p : transaction) (toSet : storage) :
    goTransferSets (nodeOf par next p) (some toSet) =
      .ok (nodeOf par next (transferSets p toSet)) :=
  foldlM_goTransferSets toSet.entries par next p

/-- A chain that ends in a parent and its nested struct, in the heap. -/
theorem Represents_concat_pair (m : Memory) (st : storage) (init : List transaction)
    (p tr : transaction) (h : Represents m ⟨st, init ++ [p, tr]⟩) :
    m.storage = some st ∧ ∃ (cs : List (Nat × transaction)) (pa a : Nat),
      cs.map Prod.snd = init ∧
      ((cs ++ [(pa, p)] ++ [(a, tr)]).map Prod.fst).Pairwise (· < ·) ∧
      m.onGoingTransaction = ((cs ++ [(pa, p)] ++ [(a, tr)]).head?).map Prod.fst ∧
      Seg m.heap none (cs ++ [(pa, p)] ++ [(a, tr)]) none := by
  have hsplit : init ++ [p, tr] = (init ++ [p]) ++ [tr] := by simp
  rw [hsplit] at h
  obtain ⟨hst, cs1, a, hcs1, hsorted, hhead, hseg⟩ := Represents_concat m st (init ++ [p]) tr h
  obtain ⟨cs, l2, rfl, hcs, hl2⟩ := List.map_eq_append_iff.mp hcs1
  obtain ⟨c, rfl, hc⟩ : ∃ c, l2 = [c] ∧ c.2 = p := by
    cases l2 with
    | nil => simp at hl2
    | cons c l2 =>
      simp only [List.map_cons, List.cons.injEq, List.map_eq_nil_iff] at hl2
      obtain ⟨h1, rfl⟩ := hl2
      exact ⟨c, rfl, h1⟩
  obtain ⟨pa, t⟩ := c
  simp only at hc
  subst hc
  exact ⟨hst, cs, pa, a, hcs, hsorted, hhead, hseg⟩

theorem rep_Commit (m : Memory) (db : InMemory) (h : Represents m db) :
    ∃ m1, heapCommit m = .ok m1 ∧ Represents m1 (Commit db) := by
  obtain ⟨st, chain⟩ := db
  rcases chain_cases chain with rfl | ⟨tr, rfl⟩ | ⟨init, p, tr, rfl⟩
  · obtain ⟨_, hon⟩ := Represents_nil m st h
    refine ⟨m, ?_, h⟩
    simp only [heapCommit, heapGetLast, hon, bind, Except.bind, pure, Except.pure]
  · obtain ⟨hst, cs, a, hcs, hsorted, hhead, hseg⟩ := Represents_concat m st [] tr h
    have hcs0 : cs = [] := List.map_eq_nil_iff.mp hcs
    subst hcs0
    have hlast := heapGetLast_concat m [] a tr hsorted hhead hseg
    have hnode := deref_of_getElem _ _ _ (Seg_last m.heap [] a tr hseg)
    refine ⟨⟨some (applySets (applyDeletes st tr.toDelete) tr.toSet), none, m.heap⟩, ?_, rfl,
      [], rfl, List.Pairwise.nil, rfl, trivial⟩
    simp only [heapCommit, hlast, hnode, bind, Except.bind, pure, Except.pure, hst,
      List.getLast?_nil, Option.map_none', goApplyDeletes_some, goApplySets_some]
  · obtain ⟨hst, cs, pa, a, hcs, hsorted, hhead, hseg⟩ :=
      Represents_concat_pair m st init p tr h
    have hlast := heapGetLast_concat m (cs ++ [(pa, p)]) a tr hsorted hhead hseg
    have hnode := deref_of_getElem _ _ _ (Seg_last m.heap (cs ++ [(pa, p)]) a tr hseg)
    rw [List.getLast?_concat] at hnode
    have hseg1 : Seg m.heap none (cs ++ [(pa, p)]) (some a) :=
      ((Seg_concat m.heap none none (cs ++ [(pa, p)]) a tr).mp hseg).1
    have hparent : m.heap[pa]? = some (nodeOf ((cs.getLast?).map Prod.fst) (some a) p) := by
      have h1 := ((Seg_concat m.heap none (some a) cs pa p).mp hseg1).2
      rw [Option.or_none] at h1
      exact h1
    have hpnode := deref_of_getElem _ _ _ hparent
    have hsorted1 := sorted_init (cs ++ [(pa, p)]) a tr hsorted
    refine ⟨⟨m.storage, m.onGoingTransaction, m.heap.set pa
      (nodeOf ((cs.getLast?).map Prod.fst) none
        (transferSets (transferDeletes p tr.toDelete) tr.toSet))⟩, ?_, ?_⟩
    · simp only [heapCommit, hlast, hnode, hpnode, bind, Except.bind, pure, Except.pure,
        Option.map_some', goTransferDeletes_nodeOf, goTransferSets_nodeOf]
      rfl
    · rw [Commit_concat]
      refine ⟨hst, cs ++ [(pa, transferSets (transferDeletes p tr.toDelete) tr.toSet)],
        ?_, ?_, ?_, ?_⟩
      · simp [hcs]
      · simpa using hsorted1
      · show m.onGoingTransaction = _
        rw [hhead]
        cases cs <;> rfl
      · exact Seg_store_last m.heap cs pa p _ (some a) none hsorted1 hseg1

theorem rep_Rollback (m : Memory) (db : InMemory) (h : Represents m db) :
    ∃ m1, heapRollback m = .ok m1 ∧ Represents m1 (Rollback db) := by
  obtain ⟨st, chain⟩ := db
  rcases chain_cases chain with rfl | ⟨tr, rfl⟩ | ⟨init, p, tr, rfl⟩
  · obtain ⟨_, hon⟩ := Represents_nil m st h
    refine ⟨m, ?_, h⟩
    simp only [heapRollback, heapGetLast, hon, bind, Except.bind, pure, Except.pure]
  · obtain ⟨hst, cs, a, hcs, hsorted, hhead, hseg⟩ := Represents_concat m st [] tr h
    have hcs0 : cs = [] := List.map_eq_nil_iff.mp hcs
    subst hcs0
    have hlast := heapGetLast_concat m [] a tr hsorted hhead hseg
    have hnode := deref_of_getElem _ _ _ (Seg_last m.heap [] a tr hseg)
    refine ⟨⟨m.storage, none, m.heap⟩, ?_, hst, [], rfl, List.Pairwise.nil, rfl, trivial⟩
    simp only [heapRollback, hlast, hnode, bind, Except.bind, pure, Except.pure,
      List.getLast?_nil, Option.map_none']
  · obtain ⟨hst, cs, pa, a, hcs, hsorted, hhead, hseg⟩ :=
      Represents_concat_pair m st init p tr h
    have hlast := heapGetLast_concat m (cs ++ [(pa, p)]) a tr hsorted hhead hseg
    have hnode := deref_of_getElem _ _ _ (Seg_last m.heap (cs ++ [(pa, p)]) a tr hseg)
    rw [List.getLast?_concat] at hnode
    have hseg1 : Seg m.heap none (cs ++ [(pa, p)]) (some a) :=
      ((Seg_concat m.heap none none (cs ++ [(pa, p)]) a tr).mp hseg).1
    have hparent : m.heap[pa]? = some (nodeOf ((cs.getLast?).map Prod.fst) (some a) p) := by
      have h1 := ((Seg_concat m.heap none (some a) cs pa p).mp hseg1).2
      rw [Option.or_none] at h1
      exact h1
    have hpnode := deref_of_getElem _ _ _ hparent
    have hsorted1 := sorted_init (cs ++ [(pa, p)]) a tr hsorted
    have hsplit : init ++ [p, tr] = (init ++ [p]) ++ [tr] := by simp
    refine ⟨⟨m.storage, m.onGoingTransaction, m.heap.set pa
      (nodeOf ((cs.getLast?).map Prod.fst) none p)⟩, ?_, ?_⟩
    · simp only [heapRollback, hlast, hnode, hpnode, bind, Except.bind, pure, Except.pure,
        Option.map_some']
      rfl
    · rw [hsplit, Rollback_concat]
      refine ⟨hst, cs ++ [(pa, p)], ?_, hsorted1, ?_, ?_⟩
      · simp [hcs]
      · show m.onGoingTransaction = _
        rw [hhead]
        cases cs <;> rfl
      · exact Seg_store_last m.heap cs pa p p (some a) none hsorted1 hseg1

/-! ## No call fails -/

theorem Represents_fresh : Represents heapInMemoryDatabase InMemoryDatabase :=
  ⟨rfl, [], rfl, List.Pairwise.nil, rfl, trivial⟩

theorem rep_step (m : Memory) (db : InMemory) (h : Represents m db) (op : Op) :
    ∃ m1, heapStep m op = .ok m1 ∧ Represents m1 (step db op) := by
  cases op with
  | get k => exact ⟨m, by rw [heapStep, rep_Get m db h k]; rfl, h⟩
  | set k v => exact rep_Set m db h k v
  | delete k => exact rep_Delete m db h k
  | startTransaction => exact rep_StartTransaction m db h
  | commit => exact rep_Commit m db h
  | rollback => exact rep_Rollback m db h

theorem rep_run (ops : List Op) (m : Memory) (db : InMemory) (h : Represents m db) :
    ∃ m1, heapRun m ops = .ok m1 ∧ Represents m1 (run db ops) := by
  induction ops generalizing m db with
  | nil => exact ⟨m, rfl, h⟩
  | cons op ops ih =>
    obtain ⟨m1, hstep, hrep⟩ := rep_step m db h op
    obtain ⟨m2, hrun, hrep2⟩ := ih m1 (step db op) hrep
    exact ⟨m2, by rw [heapRun, hstep]; exact hrun, hrep2⟩

/-- With a transaction active `getLast` returns the address of a struct whose maps
are not nil and whose `nested` is nil. -/
theorem rep_getLast (m : Memory) (db : InMemory) (h : Represents m db)
    (hactive : m.onGoingTransaction ≠ none) :
    ∃ a node, heapGetLast m = .ok (some a) ∧ m.heap[a]? = some node ∧
      node.toSet ≠ none ∧ node.toDelete ≠ none ∧ node.nested = none := by
  obtain ⟨st, chain⟩ := db
  rcases chain_snoc chain with rfl | ⟨init, tr, rfl⟩
  · exact absurd (Represents_nil m st h).2 hactive
  · obtain ⟨_, cs, a, _, hsorted, hhead, hseg⟩ := Represents_concat m st init tr h
    exact ⟨a, _, heapGetLast_concat m cs a tr hsorted hhead hseg, Seg_last m.heap cs a tr hseg,
      by simp, by simp, rfl⟩

/-- C17: after any sequence of calls on a fresh database the program on the heap
has returned from every call, its memory holds the state of the list model with
maps that are not nil in the storage and in every struct of the chain, each of
the six calls returns from it again, `Get` returns the string of the list model,
and with a transaction active `getLast` returns a struct. -/
theorem no_call_fails (ops : List Op) :
    ∃ m, heapRun heapInMemoryDatabase ops = .ok m ∧ Represents m (reach ops) ∧
      (∀ op, ∃ m1, heapStep m op = .ok m1) ∧
      (∀ k, heapGet m k = .ok (Get (reach ops) k)) ∧
      (m.onGoingTransaction ≠ none →
        ∃ a node, heapGetLast m = .ok (some a) ∧ m.heap[a]? = some node ∧
          node.toSet ≠ none ∧ node.toDelete ≠ none ∧ node.nested = none) := by
  obtain ⟨m, hrun, hrep⟩ := rep_run ops heapInMemoryDatabase InMemoryDatabase Represents_fresh
  exact ⟨m, hrun, hrep,
    fun op => (rep_step m (reach ops) hrep op).imp (fun _ hx => hx.1),
    fun k => rep_Get m (reach ops) hrep k,
    fun hactive => rep_getLast m (reach ops) hrep hactive⟩

end in_memory
